import Mathlib

/-!
# Emergency-room triage scheduler: `sjfScheduling` of `script.js`

A shallow embedding of the function `sjfScheduling` (script.js, lines 122-203) and
theorems about the schedule and the metrics it returns.

Modelling conventions.

* The fields `arrivalMinutes` and `treatmentTime` are doubles with an integer value (the
  form handler produces them with `timeToMinutes` and `parseInt`), and so is every number
  computed from them unless it overflows to an infinity. Such a number is modelled by an
  `Int`; the integers `2 ^ 1024` and `-2 ^ 1024` stand for `Infinity` and `-Infinity`.
  Every `+` and `-` of the source rounds as IEEE 754 binary64 does (`numAdd`, `numSub`),
  and the division of the averages yields the double nearest to the quotient (`numDiv`).
  The sign of a zero is not modelled.
* The objects of the input array are distinct objects (the form handler pushes a fresh
  object literal per patient), so the identity of an object is its position in the
  input array: an object is a pair `(position, fields)`, and the test
  `p !== nextPatient` compares positions.
* The `while` loop is run with a fuel that counts executions of its body; running out
  of fuel yields `none`.
* The field `arrivalTime` (the `HH:MM` text) is not read by `sjfScheduling` and is left
  out of `Patient`; the field `end` of an interval is called `stop`.
-/

namespace Triage

/-- A patient as pushed by the form handler (script.js, lines 29-35). -/
structure Patient where
  id : String
  arrivalMinutes : Int
  treatmentTime : Int
  criticality : String
deriving DecidableEq

/-- An entry of `schedule` (script.js, lines 139-144 and 172-177); `stop` is the
source's field `end`. -/
structure Interval where
  id : String
  start : Int
  stop : Int
  criticality : String
deriving DecidableEq

/-- A patient object of the input array: its position (its identity) and its fields. -/
abbrev Obj := Nat × Patient

/-! ## JavaScript numbers

Every number `sjfScheduling` computes from integer inputs is a double with an integer
value, `Infinity` or `-Infinity`; such a number is modelled by an `Int`, the integers
`2 ^ 1024` and `-2 ^ 1024` standing for `Infinity` and `-Infinity` (every finite double is
smaller in absolute value). Sums and differences are rounded as IEEE 754 binary64
prescribes: to nearest with a 53-bit significand, ties to even, overflow to infinity. -/

/-- The number of binary digits of `n`, computed with `fuel` halvings. -/
def bitLenAux : Nat → Nat → Nat
  | 0, _ => 0
  | fuel + 1, n => if n = 0 then 0 else bitLenAux fuel (n / 2) + 1

/-- The number of binary digits of `n` (`0` for `0`). -/
def bitLen (n : Nat) : Nat := bitLenAux n n

/-- The integer nearest to `num / den`, ties to the even one. -/
def roundRatio (num den : Nat) : Nat :=
  if den < 2 * (num % den) ∨ (2 * (num % den) = den ∧ num / den % 2 = 1) then num / den + 1
  else num / den

/-- A natural number rounded to 53 significant binary digits, to nearest, ties to even. -/
def roundNat (n : Nat) : Nat :=
  roundRatio n (2 ^ (bitLen n - 53)) * 2 ^ (bitLen n - 53)

/-- An integer rounded to 53 significant binary digits, to nearest, ties to even. -/
def round53 (z : Int) : Int :=
  if z < 0 then -((roundNat z.natAbs : Nat) : Int) else ((roundNat z.natAbs : Nat) : Int)

/-- The integer `2 ^ 1024`, the stand-in for `Infinity`. -/
def INF : Int :=
  179769313486231590772930519078902473361797697894230657273430081157732675805500963132708477322407536021120113879871393357658789768814416622492847430639474124377767893424865485276302219601246094119453082952085005768838150682342462881473913110540827237163350510684586298239947245938479716304835356329624224137216

/-- The double nearest to the integer `z`: rounding, then overflow to `Infinity` or
`-Infinity`. -/
def toNum (z : Int) : Int :=
  if INF ≤ round53 z then INF else if round53 z ≤ -INF then -INF else round53 z

/-- The sum `x + t` of a number `x` and a finite number `t`. -/
def numAdd (x t : Int) : Int :=
  if INF ≤ x then INF else if x ≤ -INF then -INF else toNum (x + t)

/-- The difference `x - t` of a number `x` and a finite number `t`. -/
def numSub (x t : Int) : Int :=
  if INF ≤ x then INF else if x ≤ -INF then -INF else toNum (x - t)

/-- The sum `a + b` of two numbers, either of which may be infinite; `none` is `NaN`. -/
def numAddFull (a b : Int) : Option Int :=
  if INF ≤ a then (if b ≤ -INF then none else some INF)
  else if a ≤ -INF then (if INF ≤ b then none else some (-INF))
  else if INF ≤ b then some INF
  else if b ≤ -INF then some (-INF)
  else some (toNum (a + b))

/-- A JavaScript number that need not be an integer: the value of an average. -/
inductive JSNum where
  | finite (q : ℚ)
  | posInfinity
  | negInfinity
  | nan
deriving DecidableEq

/-- The integer `e` with `2 ^ e ≤ a / n < 2 ^ (e + 1)`, for positive `a` and `n`. -/
def quotientExp (a n : Nat) : Int :=
  let d : Int := (bitLen a : Int) - (bitLen n : Int)
  if n * 2 ^ d.toNat ≤ a * 2 ^ (-d).toNat then d else d - 1

/-- The quotient of the positive integers `a` and `n` as a double: the significand `m`
and the exponent `k` of the value `m * 2 ^ k` nearest to `a / n`, ties to even, where
`k` is the exponent of the last place of a double of that size (at least `-1074`). -/
def divParts (a n : Nat) : Nat × Int :=
  let k : Int := max (quotientExp a n - 52) (-1074)
  (roundRatio (a * 2 ^ (-k).toNat) (n * 2 ^ k.toNat), k)

/-- The quotient `s / n` of a number `s` by a non-negative integer `n` (an array
length). -/
def numDiv (s : Int) (n : Nat) : JSNum :=
  if n = 0 then
    (if s = 0 then JSNum.nan else if 0 < s then JSNum.posInfinity else JSNum.negInfinity)
  else if INF ≤ s then JSNum.posInfinity
  else if s ≤ -INF then JSNum.negInfinity
  else if s = 0 then JSNum.finite 0
  else if s < 0 then
    JSNum.finite (-(((divParts s.natAbs n).1 : ℚ) * (2 : ℚ) ^ (divParts s.natAbs n).2))
  else JSNum.finite (((divParts s.natAbs n).1 : ℚ) * (2 : ℚ) ^ (divParts s.natAbs n).2)


/-- The value `Math.min(...xs)`, which is `Infinity` for the empty argument list. -/
def mathMin : List Int → Int
  | [] => INF
  | x :: xs => xs.foldl min x

/-- The comparator of both `sort` calls, `a.arrivalMinutes - b.arrivalMinutes`, as the
order it induces (`a` is not placed after `b`). -/
def arrivalLe (a b : Obj) : Prop := a.2.arrivalMinutes ≤ b.2.arrivalMinutes

instance : DecidableRel arrivalLe := fun a b =>
  inferInstanceAs (Decidable (a.2.arrivalMinutes ≤ b.2.arrivalMinutes))

/-- The call `xs.sort((a, b) => a.arrivalMinutes - b.arrivalMinutes)`:
`Array.prototype.sort` is stable, so its result is the stable sort by `arrivalMinutes`,
computed here by insertion sort. -/
def sortByArrival (xs : List Obj) : List Obj := xs.insertionSort arrivalLe

/-- The accumulators `currentTime`, `schedule`, `waitingTimes`, `turnaroundTimes`. -/
structure Acc where
  currentTime : Int
  schedule : List Interval
  waitingTimes : List Int
  turnaroundTimes : List Int
deriving DecidableEq

/-- Scheduling one patient: the body of `critical.forEach` (lines 138-149), which is
also lines 171-186 of the `while` body. -/
def schedulePatient (s : Acc) (patient : Obj) : Acc :=
  let startTime := max s.currentTime patient.2.arrivalMinutes
  let turnaroundTime :=
    numSub (numAdd startTime patient.2.treatmentTime) patient.2.arrivalMinutes
  let waitingTime := numSub turnaroundTime patient.2.treatmentTime
  { currentTime := numAdd startTime patient.2.treatmentTime
    schedule := s.schedule ++ [{ id := patient.2.id, start := startTime,
                                 stop := numAdd startTime patient.2.treatmentTime,
                                 criticality := patient.2.criticality }]
    waitingTimes := s.waitingTimes ++ [waitingTime]
    turnaroundTimes := s.turnaroundTimes ++ [turnaroundTime] }

/-- The callback of `available.reduce` (lines 165-167). -/
def pickShorter (min p : Obj) : Obj :=
  if p.2.treatmentTime < min.2.treatmentTime ∨
      (p.2.treatmentTime = min.2.treatmentTime ∧ p.2.arrivalMinutes < min.2.arrivalMinutes)
  then p else min

/-- The state of the `while` loop: the accumulators and `remainingNonCritical`. -/
structure LoopState where
  acc : Acc
  remainingNonCritical : List Obj
deriving DecidableEq

/-- One execution of the body of the `while` loop (lines 155-187). -/
def whileBody (s : LoopState) : LoopState :=
  match s.remainingNonCritical.filter (fun p => p.2.arrivalMinutes ≤ s.acc.currentTime) with
  | [] =>
    { s with acc := { s.acc with
        currentTime := mathMin (s.remainingNonCritical.map (fun p => p.2.arrivalMinutes)) } }
  | a :: rest =>
    let nextPatient := (a :: rest).foldl pickShorter a
    { acc := schedulePatient s.acc nextPatient
      remainingNonCritical := s.remainingNonCritical.filter (fun p => p.1 != nextPatient.1) }

/-- The loop `while (remainingNonCritical.length > 0)`, allowed `fuel` executions of
its body. -/
def whileLoop : Nat → LoopState → Option LoopState
  | 0, s => if s.remainingNonCritical.length > 0 then none else some s
  | fuel + 1, s =>
    if s.remainingNonCritical.length > 0 then whileLoop fuel (whileBody s) else some s

/-- The array `critical` after its `sort` (lines 124 and 128). -/
def criticalOf (patients : List Patient) : List Obj :=
  sortByArrival (patients.enum.filter (fun p => p.2.criticality = "critical"))

/-- The array `nonCritical` after its `sort` (lines 125 and 129). -/
def nonCriticalOf (patients : List Patient) : List Obj :=
  sortByArrival (patients.enum.filter (fun p => p.2.criticality = "non-critical"))

/-- The accumulators before the critical pass (lines 131-134). -/
def initAcc (patients : List Patient) : Acc :=
  { currentTime := mathMin (patients.map (fun p => p.arrivalMinutes))
    schedule := [], waitingTimes := [], turnaroundTimes := [] }

/-- Lines 122-188: the accumulators when the `while` loop has exited. -/
def sjfRun (fuel : Nat) (patients : List Patient) : Option Acc :=
  let afterCritical := (criticalOf patients).foldl schedulePatient (initAcc patients)
  (whileLoop fuel { acc := afterCritical, remainingNonCritical := nonCriticalOf patients }).map
    (fun s => s.acc)

/-- The object `metrics`. -/
structure Metrics where
  avgWaitingTime : JSNum
  avgTurnaroundTime : JSNum
deriving DecidableEq

/-- The value returned by `sjfScheduling`. -/
structure Result where
  schedule : List Interval
  metrics : Metrics
deriving DecidableEq

/-- The expression `xs.reduce((sum, x) => sum + x, 0)`; `none` is `NaN`. -/
def sumOf (xs : List Int) : Option Int :=
  xs.foldl (fun sum x => sum.bind (fun s => numAddFull s x)) (some 0)

/-- The expression `xs.length > 0 ? xs.reduce((sum, x) => sum + x, 0) / xs.length : 0`
(lines 194-197). -/
def average (xs : List Int) : JSNum :=
  if xs.length > 0 then
    (match sumOf xs with
      | some s => numDiv s xs.length
      | none => JSNum.nan)
  else JSNum.finite 0

/-- The function `sjfScheduling` (lines 122-203), its `while` loop run with `fuel`. -/
def sjfScheduling (fuel : Nat) (patients : List Patient) : Option Result :=
  (sjfRun fuel patients).map (fun s =>
    { schedule := s.schedule
      metrics := { avgWaitingTime := average s.waitingTimes
                   avgTurnaroundTime := average s.turnaroundTimes } })


/-! ## Dispatch traces

The run of `sjfScheduling` is described by the list of its dispatches: the object served
and the time its service starts. The definitions below compute that list directly; the
theorems of the next section show that the loops of the source produce exactly it. -/

/-- A dispatch: the object served and its start time. -/
abbrev Disp := Obj × Int

/-- The interval pushed on `schedule` for a dispatch. -/
def Disp.interval (d : Disp) : Interval :=
  { id := d.1.2.id, start := d.2, stop := numAdd d.2 d.1.2.treatmentTime,
    criticality := d.1.2.criticality }

/-- The turnaround time pushed on `turnaroundTimes` for a dispatch. -/
def Disp.turnaround (d : Disp) : Int :=
  numSub (numAdd d.2 d.1.2.treatmentTime) d.1.2.arrivalMinutes

/-- The waiting time pushed on `waitingTimes` for a dispatch. -/
def Disp.waiting (d : Disp) : Int :=
  numSub (Disp.turnaround d) d.1.2.treatmentTime

/-- The value of `currentTime` after the dispatches `ds`, started at `c`. -/
def clockAfter (c : Int) (ds : List Disp) : Int :=
  ds.foldl (fun _ d => numAdd d.2 d.1.2.treatmentTime) c

/-- The accumulators after the dispatches `ds`. -/
def Acc.extend (s : Acc) (ds : List Disp) : Acc :=
  { currentTime := clockAfter s.currentTime ds
    schedule := s.schedule ++ ds.map Disp.interval
    waitingTimes := s.waitingTimes ++ ds.map Disp.waiting
    turnaroundTimes := s.turnaroundTimes ++ ds.map Disp.turnaround }

/-- The dispatches of the critical pass run from clock `c`. -/
def critTrace : Int → List Obj → List Disp
  | _, [] => []
  | c, p :: ps =>
    (p, max c p.2.arrivalMinutes) ::
      critTrace (numAdd (max c p.2.arrivalMinutes) p.2.treatmentTime) ps

/-- The strict order of the `reduce` callback: shorter treatment first, then earlier
arrival. -/
def lexLt (p q : Obj) : Prop :=
  p.2.treatmentTime < q.2.treatmentTime ∨
    (p.2.treatmentTime = q.2.treatmentTime ∧ p.2.arrivalMinutes < q.2.arrivalMinutes)

/-- The patients of `remaining` that have arrived at time `c`. -/
def availableAt (c : Int) (remaining : List Obj) : List Obj :=
  remaining.filter (fun p => p.2.arrivalMinutes ≤ c)

/-- The time of the next non-critical dispatch: the clock if somebody has arrived, the
earliest remaining arrival otherwise. -/
def nextClock (c : Int) (remaining : List Obj) : Int :=
  if availableAt c remaining = [] then mathMin (remaining.map (fun p => p.2.arrivalMinutes))
  else c

/-- The result of the `reduce` on a non-empty `available`. -/
def selectNext : List Obj → Option Obj
  | [] => none
  | a :: rest => some ((a :: rest).foldl pickShorter a)

/-- The dispatches of the non-critical pass run from clock `c` on `remaining`. -/
def ncTrace : Nat → Int → List Obj → List Disp
  | 0, _, _ => []
  | n + 1, c, remaining =>
    match selectNext (availableAt (nextClock c remaining) remaining) with
    | none => []
    | some nx =>
      (nx, nextClock c remaining) ::
        ncTrace n (numAdd (nextClock c remaining) nx.2.treatmentTime)
          (remaining.filter (fun p => p.1 != nx.1))

/-- The dispatches of a whole run. -/
def trace (patients : List Patient) : List Disp :=
  let cs := critTrace (initAcc patients).currentTime (criticalOf patients)
  cs ++ ncTrace (nonCriticalOf patients).length
    (clockAfter (initAcc patients).currentTime cs) (nonCriticalOf patients)


/-- A list of dispatches run from clock `c` in which nobody starts before the clock or
before the own arrival, and every start is the clock or one of the arrival times `A`. -/
def Timeline (A : List Int) : Int → List Disp → Prop
  | _, [] => True
  | c, d :: ds =>
    c ≤ d.2 ∧ d.1.2.arrivalMinutes ≤ d.2 ∧ (d.2 = c ∨ d.2 ∈ A) ∧
      Timeline A (numAdd d.2 d.1.2.treatmentTime) ds

instance : IsTotal Obj arrivalLe := ⟨fun a b => le_total a.2.arrivalMinutes b.2.arrivalMinutes⟩

instance : IsTrans Obj arrivalLe :=
  ⟨fun a b c (h1 : a.2.arrivalMinutes ≤ b.2.arrivalMinutes)
    (h2 : b.2.arrivalMinutes ≤ c.2.arrivalMinutes) => le_trans h1 h2⟩

/-! ## Preconditions of the specification -/

/-- An integer with at most 53 significant binary digits: a value a double can hold
(the stand-ins for the infinities included). -/
def IsRep (z : Int) : Prop := ∃ m j : Nat, z.natAbs = m * 2 ^ j ∧ m < 2 ^ 53

/-- A non-negative number: a non-negative double with an integer value, or `Infinity`. -/
def IsClock (x : Int) : Prop := IsRep x ∧ 0 ≤ x ∧ x ≤ INF

/-- A finite double with an integer value. -/
def IsNumber (x : Int) : Prop := round53 x = x ∧ -INF < x ∧ x < INF

instance (x : Int) : Decidable (IsNumber x) :=
  inferInstanceAs (Decidable (round53 x = x ∧ -INF < x ∧ x < INF))

/-- Arrival times are non-negative integers and treatment times positive integers, each
of them a JavaScript number (a finite double). -/
def ValidTimes (patients : List Patient) : Prop :=
  ∀ p ∈ patients, IsNumber p.arrivalMinutes ∧ IsNumber p.treatmentTime ∧
    0 ≤ p.arrivalMinutes ∧ 0 < p.treatmentTime

/-- Every class is one of the two recognised values. -/
def ValidClasses (patients : List Patient) : Prop :=
  ∀ p ∈ patients, p.criticality = "critical" ∨ p.criticality = "non-critical"

/-- The identifiers are pairwise distinct. -/
def DistinctIds (patients : List Patient) : Prop :=
  (patients.map (fun p => p.id)).Nodup

/-- The preconditions of the scheduler (spec, section 4.1). -/
def ValidInput (patients : List Patient) : Prop :=
  ValidTimes patients ∧ ValidClasses patients ∧ DistinctIds patients

instance (patients : List Patient) : Decidable (ValidTimes patients) :=
  inferInstanceAs (Decidable (∀ p ∈ patients, IsNumber p.arrivalMinutes ∧
    IsNumber p.treatmentTime ∧ 0 ≤ p.arrivalMinutes ∧ 0 < p.treatmentTime))

instance (patients : List Patient) : Decidable (ValidClasses patients) :=
  inferInstanceAs (Decidable
    (∀ p ∈ patients, p.criticality = "critical" ∨ p.criticality = "non-critical"))

instance (patients : List Patient) : Decidable (DistinctIds patients) :=
  inferInstanceAs (Decidable (List.Nodup (patients.map (fun p : Patient => p.id))))

instance (patients : List Patient) : Decidable (ValidInput patients) :=
  inferInstanceAs (Decidable (ValidTimes patients ∧ ValidClasses patients ∧ DistinctIds patients))

/-- The latest arrival time of the input (`0` for the empty input). -/
def latestArrival (patients : List Patient) : Int :=
  (patients.map (fun p => p.arrivalMinutes)).foldl max 0

/-- The sum of the treatment times of the input, as an exact integer. -/
def totalTreatment (patients : List Patient) : Int :=
  (patients.map (fun p => p.treatmentTime)).sum

/-- The latest arrival plus all treatment times stays below `2 ^ 53`: no clock value of
the run leaves the range in which doubles hold every integer. -/
def SafeRange (patients : List Patient) : Prop :=
  latestArrival patients + totalTreatment patients < 9007199254740992

/-- The number of patients times the bound of `SafeRange` stays below `2 ^ 53`: no sum
of waiting or turnaround times leaves the range in which doubles hold every integer. -/
def SafeSums (patients : List Patient) : Prop :=
  (patients.length : Int) * (latestArrival patients + totalTreatment patients) <
    9007199254740992

instance (patients : List Patient) : Decidable (SafeRange patients) :=
  inferInstanceAs (Decidable
    (latestArrival patients + totalTreatment patients < 9007199254740992))

instance (patients : List Patient) : Decidable (SafeSums patients) :=
  inferInstanceAs (Decidable
    ((patients.length : Int) * (latestArrival patients + totalTreatment patients) <
      9007199254740992))

/-! ## The example scenarios of the specification (section 8) -/

/-- Scenario 1: `P1(arrival=0,dur=10,N)`, `P2(arrival=0,dur=5,N)`. -/
def scenario1 : List Patient :=
  [⟨"P1", 0, 10, "non-critical"⟩, ⟨"P2", 0, 5, "non-critical"⟩]

/-- Scenario 2: `P1(arrival=0,dur=10,N)`, `P2(arrival=5,dur=3,C)`. -/
def scenario2 : List Patient :=
  [⟨"P1", 0, 10, "non-critical"⟩, ⟨"P2", 5, 3, "critical"⟩]

/-- Scenario 4: `A(arrival=10,dur=5)`, `B(arrival=0,dur=5)`, both non-critical. -/
def scenario4 : List Patient :=
  [⟨"A", 10, 5, "non-critical"⟩, ⟨"B", 0, 5, "non-critical"⟩]

/-- A mixed input: two critical and three non-critical patients. -/
def wardMix : List Patient :=
  [⟨"N1", 0, 10, "non-critical"⟩, ⟨"C1", 5, 8, "critical"⟩, ⟨"N2", 3, 4, "non-critical"⟩,
   ⟨"C2", 2, 6, "critical"⟩, ⟨"N3", 40, 2, "non-critical"⟩]

/-- The arrival time of the patient with identifier `id` (`0` when there is none). -/
def arrivalOf (patients : List Patient) (id : String) : Int :=
  match patients.find? (fun p => p.id = id) with
  | some p => p.arrivalMinutes
  | none => 0

/-- Two critical patients arriving together, the longer treatment submitted first. -/
def criticalPair : List Patient :=
  [⟨"C1", 0, 10, "critical"⟩, ⟨"C2", 0, 5, "critical"⟩]

/-- Four patients arriving together, two of each class. -/
def sameArrival : List Patient :=
  [⟨"N1", 30, 9, "non-critical"⟩, ⟨"C1", 30, 7, "critical"⟩, ⟨"N2", 30, 4, "non-critical"⟩,
   ⟨"C2", 30, 2, "critical"⟩]

/-- One patient arriving at 00:01 whose treatment time is `2 ^ 53`. -/
def longStay : List Patient :=
  [⟨"H", 1, 9007199254740992, "non-critical"⟩]

/-! ## Rounding -/

theorem bitLenAux_spec (fuel : Nat) : ∀ n : Nat, n ≤ fuel →
    n < 2 ^ bitLenAux fuel n ∧ (n ≠ 0 → 2 ^ (bitLenAux fuel n - 1) ≤ n) := by
  induction fuel with
  | zero =>
    intro n hn
    have : n = 0 := by omega
    subst this
    simp [bitLenAux]
  | succ fuel ih =>
    intro n hn
    by_cases h0 : n = 0
    · subst h0
      simp [bitLenAux]
    · have hstep : bitLenAux (fuel + 1) n = bitLenAux fuel (n / 2) + 1 := by
        simp [bitLenAux, h0]
      obtain ⟨h1, h2⟩ := ih (n / 2) (by omega)
      rw [hstep]
      constructor
      · rw [Nat.pow_succ]
        omega
      · intro _
        simp only [Nat.add_sub_cancel]
        by_cases h3 : n / 2 = 0
        · have hb : bitLenAux fuel (n / 2) = 0 := by
            rw [h3]
            cases fuel <;> simp [bitLenAux]
          rw [hb]
          simp
          omega
        · have h4 := h2 h3
          have h5 : 2 ^ bitLenAux fuel (n / 2) = 2 ^ (bitLenAux fuel (n / 2) - 1) * 2 := by
            rw [← Nat.pow_succ]
            congr 1
            have : bitLenAux fuel (n / 2) ≠ 0 := by
              intro hz
              rw [hz] at h1
              simp at h1
              exact h3 h1
            omega
          rw [h5]
          omega

theorem lt_two_pow_bitLen (n : Nat) : n < 2 ^ bitLen n :=
  (bitLenAux_spec n n (le_refl _)).1

theorem two_pow_bitLen_le {n : Nat} (h : n ≠ 0) : 2 ^ (bitLen n - 1) ≤ n :=
  (bitLenAux_spec n n (le_refl _)).2 h

theorem bitLen_le_of_lt {n k : Nat} (h : n < 2 ^ k) : bitLen n ≤ k := by
  by_contra hgt
  have h0 : n ≠ 0 := by
    intro h0
    subst h0
    have : bitLen 0 = 0 := by simp [bitLen, bitLenAux]
    omega
  have h1 := two_pow_bitLen_le h0
  have h2 : 2 ^ k ≤ 2 ^ (bitLen n - 1) := Nat.pow_le_pow_right (by decide) (by omega)
  omega

theorem div_le_roundRatio (num den : Nat) : num / den ≤ roundRatio num den := by
  unfold roundRatio
  split <;> omega

theorem roundRatio_le (num den : Nat) : roundRatio num den ≤ num / den + 1 := by
  unfold roundRatio
  split <;> omega

theorem roundRatio_one (n : Nat) : roundRatio n 1 = n := by
  simp [roundRatio, Nat.mod_one]

/-- Rounding leaves an integer of fewer than 54 binary digits alone. -/
theorem roundNat_of_lt {n : Nat} (h : n < 2 ^ 53) : roundNat n = n := by
  have hk : bitLen n - 53 = 0 := by
    have := bitLen_le_of_lt h
    omega
  simp [roundNat, hk, roundRatio_one]

/-- The rounded value has at most 53 significant binary digits. -/
theorem roundNat_rep (n : Nat) : ∃ m j : Nat, roundNat n = m * 2 ^ j ∧ m < 2 ^ 53 := by
  have hq : n / 2 ^ (bitLen n - 53) < 2 ^ 53 := by
    rw [Nat.div_lt_iff_lt_mul (Nat.two_pow_pos _)]
    rw [← Nat.pow_add]
    exact lt_of_lt_of_le (lt_two_pow_bitLen n) (Nat.pow_le_pow_right (by decide) (by omega))
  have hle := roundRatio_le n (2 ^ (bitLen n - 53))
  by_cases hm : roundRatio n (2 ^ (bitLen n - 53)) < 2 ^ 53
  · exact ⟨_, _, rfl, hm⟩
  · have he : roundRatio n (2 ^ (bitLen n - 53)) = 2 ^ 53 := by omega
    refine ⟨2 ^ 52, bitLen n - 53 + 1, ?_, by decide⟩
    unfold roundNat
    rw [he]
    ring

/-- Rounding never goes below a value with at most 53 significant digits that the
argument reaches. -/
theorem le_roundNat {y n m j : Nat} (hy : y = m * 2 ^ j) (hm : m < 2 ^ 53) (hle : y ≤ n) :
    y ≤ roundNat n := by
  have hfloor : n / 2 ^ (bitLen n - 53) * 2 ^ (bitLen n - 53) ≤ roundNat n :=
    Nat.mul_le_mul_right _ (div_le_roundRatio _ _)
  refine le_trans ?_ hfloor
  have hpos : 0 < 2 ^ (bitLen n - 53) := Nat.two_pow_pos _
  by_cases hj : bitLen n - 53 ≤ j
  · -- `y` is a multiple of the rounding step
    obtain ⟨i, hi⟩ : ∃ i, j = (bitLen n - 53) + i := ⟨j - (bitLen n - 53), by omega⟩
    have hy2 : y = (m * 2 ^ i) * 2 ^ (bitLen n - 53) := by
      rw [hy, hi, Nat.pow_add, Nat.mul_assoc, Nat.mul_comm (2 ^ i)]
    rw [hy2]
    apply Nat.mul_le_mul_right
    rw [Nat.le_div_iff_mul_le hpos, ← hy2]
    exact hle
  · -- `y` lies below the leading power of two of `n`
    have hK : 1 ≤ bitLen n - 53 := by omega
    have hn0 : n ≠ 0 := by
      intro h0
      subst h0
      have : bitLen 0 = 0 := by simp [bitLen, bitLenAux]
      omega
    have hlow := two_pow_bitLen_le hn0
    have hsplit : 2 ^ (bitLen n - 1) = 2 ^ 52 * 2 ^ (bitLen n - 53) := by
      rw [← Nat.pow_add]
      congr 1
      omega
    have h1 : 2 ^ 52 ≤ n / 2 ^ (bitLen n - 53) := by
      rw [Nat.le_div_iff_mul_le hpos, ← hsplit]
      exact hlow
    have h2 : y ≤ 2 ^ 52 * 2 ^ (bitLen n - 53) := by
      rw [hy]
      have h3 : m * 2 ^ j ≤ 2 ^ 53 * 2 ^ j := Nat.mul_le_mul_right _ (le_of_lt hm)
      have h4 : 2 ^ 53 * 2 ^ j ≤ 2 ^ 52 * 2 ^ (bitLen n - 53) := by
        rw [← Nat.pow_add, ← Nat.pow_add]
        exact Nat.pow_le_pow_right (by decide) (by omega)
      exact le_trans h3 h4
    exact le_trans h2 (Nat.mul_le_mul_right _ h1)

theorem natAbs_round53 (z : Int) : (round53 z).natAbs = roundNat z.natAbs := by
  unfold round53
  split <;> simp

theorem round53_rep (z : Int) : IsRep (round53 z) := by
  obtain ⟨m, j, h1, h2⟩ := roundNat_rep z.natAbs
  exact ⟨m, j, by rw [natAbs_round53, h1], h2⟩

theorem round53_of_lt {z : Int} (h1 : -9007199254740992 < z) (h2 : z < 9007199254740992) :
    round53 z = z := by
  have hn : z.natAbs < 2 ^ 53 := by
    have : (2 : Nat) ^ 53 = 9007199254740992 := by decide
    omega
  unfold round53
  rw [roundNat_of_lt hn]
  split <;> omega

theorem round53_nonneg {z : Int} (h : 0 ≤ z) : 0 ≤ round53 z := by
  unfold round53
  split
  · omega
  · exact Int.ofNat_nonneg _

theorem le_round53 {y z : Int} (hy : IsRep y) (h0 : 0 ≤ y) (hle : y ≤ z) : y ≤ round53 z := by
  obtain ⟨m, j, h1, h2⟩ := hy
  have hn : y.natAbs ≤ z.natAbs := by omega
  have := le_roundNat h1 h2 hn
  unfold round53
  split
  · omega
  · omega

theorem INF_eq_pow : INF.natAbs = 1 * 2 ^ 1024 := by
  unfold INF
  norm_num

theorem INF_rep : IsRep INF := ⟨1, 1024, INF_eq_pow, by decide⟩

theorem INF_pos : 9007199254740992 < INF := by
  unfold INF
  norm_num

theorem toNum_of_lt {z : Int} (h1 : -9007199254740992 < z) (h2 : z < 9007199254740992) :
    toNum z = z := by
  have := INF_pos
  unfold toNum
  rw [round53_of_lt h1 h2]
  split
  · omega
  · split <;> omega

theorem toNum_le_INF (z : Int) : toNum z ≤ INF := by
  have := INF_pos
  unfold toNum
  split
  · exact le_refl _
  · split <;> omega

theorem toNum_nonneg {z : Int} (h : 0 ≤ z) : 0 ≤ toNum z := by
  have := INF_pos
  have := round53_nonneg h
  unfold toNum
  split
  · omega
  · split <;> omega

theorem toNum_rep {z : Int} (h : 0 ≤ z) : IsRep (toNum z) := by
  have := INF_pos
  have := round53_nonneg h
  unfold toNum
  split
  · exact INF_rep
  · split
    · omega
    · exact round53_rep z

theorem le_toNum {y z : Int} (hy : IsClock y) (hle : y ≤ z) : y ≤ toNum z := by
  have := INF_pos
  have h1 := le_round53 hy.1 hy.2.1 hle
  unfold toNum
  split
  · exact hy.2.2
  · split <;> omega

theorem isClock_of_isNumber {x : Int} (h : IsNumber x) (h0 : 0 ≤ x) : IsClock x :=
  ⟨h.1 ▸ round53_rep x, h0, le_of_lt h.2.2⟩

/-- Adding a non-negative number never moves a clock back; the result is a clock. -/
theorem le_numAdd {x t : Int} (hx : IsClock x) (ht : 0 ≤ t) :
    x ≤ numAdd x t ∧ IsClock (numAdd x t) := by
  have := INF_pos
  unfold numAdd
  split
  · exact ⟨hx.2.2, INF_rep, by omega, le_refl _⟩
  · split
    · have := hx.2.1
      omega
    · have h0 : 0 ≤ x + t := by have := hx.2.1; omega
      exact ⟨le_toNum hx (by omega), toNum_rep h0, toNum_nonneg h0, toNum_le_INF _⟩

/-- In the range of the exactly representable integers the sum is exact. -/
theorem numAdd_exact {x t : Int} (hx1 : -9007199254740992 < x) (hx2 : x < 9007199254740992)
    (h1 : -9007199254740992 < x + t) (h2 : x + t < 9007199254740992) :
    numAdd x t = x + t := by
  have := INF_pos
  unfold numAdd
  split
  · omega
  · split
    · omega
    · exact toNum_of_lt h1 h2

/-- In the range of the exactly representable integers the difference is exact. -/
theorem numSub_exact {x t : Int} (hx1 : -9007199254740992 < x) (hx2 : x < 9007199254740992)
    (h1 : -9007199254740992 < x - t) (h2 : x - t < 9007199254740992) :
    numSub x t = x - t := by
  have := INF_pos
  unfold numSub
  split
  · omega
  · split
    · omega
    · exact toNum_of_lt h1 h2

theorem numSub_nonneg {x t : Int} (h : t ≤ x) (h0 : 0 ≤ x) : 0 ≤ numSub x t := by
  have := INF_pos
  unfold numSub
  split
  · omega
  · split
    · omega
    · exact toNum_nonneg (by omega)

theorem numAddFull_exact {a b : Int} (ha1 : -9007199254740992 < a) (ha2 : a < 9007199254740992)
    (hb1 : -9007199254740992 < b) (hb2 : b < 9007199254740992)
    (h1 : -9007199254740992 < a + b) (h2 : a + b < 9007199254740992) :
    numAddFull a b = some (a + b) := by
  have := INF_pos
  unfold numAddFull
  rw [if_neg (by omega), if_neg (by omega), if_neg (by omega), if_neg (by omega),
    toNum_of_lt h1 h2]

/-- The rounded quotient is within half a unit of the exact quotient. -/
theorem roundRatio_nearest (num den : Nat) (h : 0 < den) :
    2 * (roundRatio num den * den) ≤ 2 * num + den ∧
      2 * num ≤ 2 * (roundRatio num den * den) + den := by
  have h1 := Nat.div_add_mod num den
  have h2 := Nat.mod_lt num h
  have h3 : num / den * den = den * (num / den) := Nat.mul_comm _ _
  unfold roundRatio
  split
  · next hc =>
    rw [Nat.add_mul, Nat.one_mul, h3]
    rcases hc with hc | hc <;> omega
  · next hc =>
    rw [h3]
    have : ¬ den < 2 * (num % den) := fun h' => hc (Or.inl h')
    omega

/-- Sums at `2 ^ 53`, where doubles hold the even integers only: `2 ^ 53 + 1` is a tie and
goes to the even significand `2 ^ 53`, `2 ^ 53 + 3` is a tie and goes to `2 ^ 53 + 4`. -/
theorem numAdd_ties_to_even :
    numAdd 9007199254740992 1 = 9007199254740992 ∧
      numAdd 9007199254740992 3 = 9007199254740996 ∧
      numAdd 9007199254740992 2 = 9007199254740994 ∧
      numSub (-9007199254740992) 1 = -9007199254740992 := by
  decide

/-- Quotients that are not doubles are rounded: `4 / 3` is `6004799503160661 * 2 ^ -52`
(printed `1.3333333333333333`) and `1 / 3` is `6004799503160661 * 2 ^ -54`; `5 / 2` is
exact. -/
theorem numDiv_examples :
    numDiv 4 3 = JSNum.finite (6004799503160661 / 4503599627370496) ∧
      numDiv 1 3 = JSNum.finite (6004799503160661 / 18014398509481984) ∧
      numDiv 5 2 = JSNum.finite (5 / 2) ∧
      numDiv (-1) 1 = JSNum.finite (-1) := by
  have h1 : divParts 4 3 = (6004799503160661, -52) := by decide
  have h2 : divParts 1 3 = (6004799503160661, -54) := by decide
  have h3 : divParts 5 2 = (5 * 2 ^ 50, -51) := by decide
  have h4 : divParts 1 1 = (2 ^ 52, -52) := by decide
  refine ⟨?_, ?_, ?_, ?_⟩ <;> simp only [numDiv] <;> norm_num [INF, h1, h2, h3, h4]

set_option maxRecDepth 100000 in
set_option exponentiation.threshold 2000 in
/-- Overflow: the sum of two doubles equal to `2 ^ 1023` is `Infinity`, and adding less
than half a unit in the last place to the largest double leaves it unchanged. -/
theorem numAdd_overflow :
    numAdd
        89884656743115795386465259539451236680898848947115328636715040578866337902750481566354238661203768010560056939935696678829394884407208311246423715319737062188883946712432742638151109800623047059726541476042502884419075341171231440736956555270413618581675255342293149119973622969239858152417678164812112068608
        89884656743115795386465259539451236680898848947115328636715040578866337902750481566354238661203768010560056939935696678829394884407208311246423715319737062188883946712432742638151109800623047059726541476042502884419075341171231440736956555270413618581675255342293149119973622969239858152417678164812112068608 = INF ∧
      numAdd
        179769313486231570814527423731704356798070567525844996598917476803157260780028538760589558632766878171540458953514382464234321326889464182768467546703537516986049910576551282076245490090389328944075868508455133942304583236903222948165808559332123348274797826204144723168738177180919299881250404026184124858368
        4989600773836799529140931782592096415168628151088643853756368106093029729672410164462394913731589252723356117110481238109931094970983984151847929495712078550800014182377714191293844303610907467956633391861359809983327026137802175972222138171120110393767802267189390104105896238075860024819712 =
        179769313486231570814527423731704356798070567525844996598917476803157260780028538760589558632766878171540458953514382464234321326889464182768467546703537516986049910576551282076245490090389328944075868508455133942304583236903222948165808559332123348274797826204144723168738177180919299881250404026184124858368 := by
  decide

/-! ## The loops compute the trace -/

theorem foldl_min_spec (xs : List Int) (x : Int) :
    xs.foldl min x ≤ x ∧ (∀ y ∈ xs, xs.foldl min x ≤ y) ∧ xs.foldl min x ∈ x :: xs := by
  induction xs generalizing x with
  | nil => simp
  | cons a as ih =>
    obtain ⟨h1, h2, h3⟩ := ih (min x a)
    refine ⟨le_trans h1 (min_le_left _ _), ?_, ?_⟩
    · intro y hy
      rcases List.mem_cons.1 hy with rfl | hy
      · exact le_trans h1 (min_le_right _ _)
      · exact h2 y hy
    · simp only [List.foldl_cons]
      rcases List.mem_cons.1 h3 with h | h
      · rw [h]
        rcases min_choice x a with h' | h' <;> simp [h']
      · simp [h]

theorem mathMin_mem {xs : List Int} (h : xs ≠ []) : mathMin xs ∈ xs := by
  cases xs with
  | nil => exact absurd rfl h
  | cons x xs => exact (foldl_min_spec xs x).2.2

theorem mathMin_le {xs : List Int} {y : Int} (h : y ∈ xs) : mathMin xs ≤ y := by
  cases xs with
  | nil => simp at h
  | cons x xs =>
    rcases List.mem_cons.1 h with rfl | h
    · exact (foldl_min_spec xs y).1
    · exact (foldl_min_spec xs x).2.1 y h

theorem mathMin_congr {xs ys : List Int} (h : ∀ x, x ∈ xs ↔ x ∈ ys) (hne : xs ≠ []) :
    mathMin xs = mathMin ys := by
  have hne' : ys ≠ [] := by
    intro h0
    have := mathMin_mem hne
    rw [h, h0] at this
    simp at this
  exact le_antisymm (mathMin_le ((h _).2 (mathMin_mem hne')))
    (mathMin_le ((h _).1 (mathMin_mem hne)))

theorem foldl_pickShorter_spec (l : List Obj) (init : Obj) :
    l.foldl pickShorter init ∈ init :: l ∧ ¬ lexLt init (l.foldl pickShorter init) ∧
      ∀ q ∈ l, ¬ lexLt q (l.foldl pickShorter init) := by
  induction l generalizing init with
  | nil => simp [lexLt]
  | cons p l ih =>
    obtain ⟨h1, h2, h3⟩ := ih (pickShorter init p)
    simp only [List.foldl_cons]
    refine ⟨?_, ?_, ?_⟩
    · rcases List.mem_cons.1 h1 with h | h
      · rw [h]
        unfold pickShorter
        split <;> simp
      · simp [h]
    · revert h2
      unfold pickShorter lexLt
      split <;> intro h2 <;> omega
    · intro q hq
      rcases List.mem_cons.1 hq with rfl | hq
      · revert h2
        unfold pickShorter lexLt
        split <;> intro h2 <;> omega
      · exact h3 q hq

theorem selectNext_spec {avail : List Obj} {nx : Obj} (h : selectNext avail = some nx) :
    nx ∈ avail ∧ ∀ q ∈ avail, ¬ lexLt q nx := by
  cases avail with
  | nil => simp [selectNext] at h
  | cons a rest =>
    simp only [selectNext, Option.some.injEq] at h
    subst h
    obtain ⟨h1, -, h3⟩ := foldl_pickShorter_spec (a :: rest) a
    exact ⟨by simpa using h1, h3⟩

theorem selectNext_isSome {avail : List Obj} (h : avail ≠ []) : ∃ nx, selectNext avail = some nx := by
  cases avail with
  | nil => exact absurd rfl h
  | cons a rest => exact ⟨_, rfl⟩

theorem Acc.extend_nil (s : Acc) : s.extend [] = s := by
  simp [Acc.extend, clockAfter]

theorem schedulePatient_eq_extend (s : Acc) (p : Obj) :
    schedulePatient s p = s.extend [(p, max s.currentTime p.2.arrivalMinutes)] := by
  simp [schedulePatient, Acc.extend, clockAfter, Disp.interval, Disp.waiting, Disp.turnaround]

theorem Acc.extend_extend (s : Acc) (ds es : List Disp) :
    (s.extend ds).extend es = s.extend (ds ++ es) := by
  simp [Acc.extend, clockAfter, List.foldl_append, List.append_assoc]

theorem foldl_schedulePatient (crit : List Obj) (s : Acc) :
    crit.foldl schedulePatient s = s.extend (critTrace s.currentTime crit) := by
  induction crit generalizing s with
  | nil => simp [critTrace, Acc.extend_nil]
  | cons p ps ih =>
    rw [List.foldl_cons, ih, schedulePatient_eq_extend, Acc.extend_extend]
    simp [critTrace, Acc.extend, clockAfter]

theorem ncTrace_nil (n : Nat) (c : Int) : ncTrace n c [] = [] := by
  cases n <;> simp [ncTrace, availableAt, selectNext]

theorem availableAt_nextClock_ne_nil {c : Int} {remaining : List Obj} (h : remaining ≠ []) :
    availableAt (nextClock c remaining) remaining ≠ [] := by
  unfold nextClock
  split
  · have hne : remaining.map (fun p => p.2.arrivalMinutes) ≠ [] := by simpa using h
    obtain ⟨p, hp, hpe⟩ := List.mem_map.1 (mathMin_mem hne)
    intro h0
    have : p ∈ availableAt (mathMin (remaining.map (fun p => p.2.arrivalMinutes))) remaining := by
      simp only [availableAt, List.mem_filter, decide_eq_true_eq]
      exact ⟨hp, le_of_eq hpe⟩
    rw [h0] at this
    simp at this
  · assumption

theorem length_filter_ne_lt {remaining : List Obj} {nx : Obj} (h : nx ∈ remaining) :
    (remaining.filter (fun p => p.1 != nx.1)).length < remaining.length := by
  induction remaining with
  | nil => simp at h
  | cons a as ih =>
    by_cases ha : a.1 = nx.1
    · have : (List.filter (fun p => p.1 != nx.1) (a :: as)) = List.filter (fun p => p.1 != nx.1) as := by
        simp [List.filter_cons, ha]
      rw [this]
      exact Nat.lt_succ_of_le (List.length_filter_le _ _)
    · have hne : a ≠ nx := fun h' => ha (by rw [h'])
      have hmem : nx ∈ as := by
        rcases List.mem_cons.1 h with h' | h'
        · exact absurd h'.symm hne
        · exact h'
      have : (List.filter (fun p => p.1 != nx.1) (a :: as)) = a :: List.filter (fun p => p.1 != nx.1) as := by
        simp [List.filter_cons, ha]
      rw [this]
      simpa using ih hmem

/-- One execution of the loop body when somebody has arrived: it is a dispatch at the
current clock. -/
theorem whileBody_dispatch {s : LoopState} {nx : Obj}
    (h : selectNext (availableAt s.acc.currentTime s.remainingNonCritical) = some nx) :
    whileBody s =
      { acc := s.acc.extend [(nx, s.acc.currentTime)]
        remainingNonCritical := s.remainingNonCritical.filter (fun p => p.1 != nx.1) } := by
  have hmem := (selectNext_spec h).1
  have harr : nx.2.arrivalMinutes ≤ s.acc.currentTime := by
    simp only [availableAt, List.mem_filter, decide_eq_true_eq] at hmem
    exact hmem.2
  unfold whileBody
  unfold availableAt at h
  split
  · next h0 => rw [h0] at h; simp [selectNext] at h
  · next a rest h0 =>
    rw [h0] at h
    simp only [selectNext, Option.some.injEq] at h
    simp only [h, schedulePatient_eq_extend, max_eq_left harr]

/-- One execution of the loop body when nobody has arrived: the clock moves to
`nextClock` and nothing else changes. -/
theorem whileBody_idle {s : LoopState}
    (h : availableAt s.acc.currentTime s.remainingNonCritical = []) :
    whileBody s =
      { acc := { s.acc with
          currentTime := nextClock s.acc.currentTime s.remainingNonCritical }
        remainingNonCritical := s.remainingNonCritical } := by
  unfold whileBody nextClock
  unfold availableAt at h
  rw [h]
  simp [availableAt, h]

theorem Acc.extend_cons_clock (s : Acc) (c : Int) (d : Disp) (ds : List Disp) :
    ({ s with currentTime := c } : Acc).extend (d :: ds) = s.extend (d :: ds) := by
  simp [Acc.extend, clockAfter]

/-- The loop exits within two executions of its body per remaining patient, and its
final state is the initial accumulators extended by the non-critical trace. -/
theorem whileLoop_eq (n : Nat) : ∀ (s : LoopState) (fuel : Nat),
    s.remainingNonCritical.length ≤ n → 2 * s.remainingNonCritical.length ≤ fuel →
    whileLoop fuel s =
      some { acc := s.acc.extend (ncTrace n s.acc.currentTime s.remainingNonCritical)
             remainingNonCritical := [] } := by
  induction n with
  | zero =>
    intro s fuel hn _
    have h0 : s.remainingNonCritical = [] := List.length_eq_zero.1 (Nat.le_zero.1 hn)
    cases s with
    | mk acc rem =>
      simp only at h0
      subst h0
      cases fuel <;> simp [whileLoop, ncTrace, Acc.extend_nil]
  | succ n ih =>
    intro s fuel hn hf
    cases s with
    | mk acc rem =>
    by_cases h0 : rem = []
    · subst h0
      cases fuel <;> simp [whileLoop, ncTrace_nil, Acc.extend_nil]
    · simp only at hn hf
      have hpos : 0 < rem.length := List.length_pos.2 h0
      obtain ⟨nx, hnx⟩ := selectNext_isSome (availableAt_nextClock_ne_nil (c := acc.currentTime) h0)
      have hmem : nx ∈ rem := by
        have := (selectNext_spec hnx).1
        simp only [availableAt, List.mem_filter] at this
        exact this.1
      have hlt := length_filter_ne_lt hmem
      have htrace : ncTrace (n + 1) acc.currentTime rem =
          (nx, nextClock acc.currentTime rem) ::
            ncTrace n (numAdd (nextClock acc.currentTime rem) nx.2.treatmentTime)
              (rem.filter (fun p => p.1 != nx.1)) := by
        simp [ncTrace, hnx]
      obtain ⟨f1, rfl⟩ : ∃ f1, fuel = f1 + 1 := ⟨fuel - 1, by omega⟩
      obtain ⟨f2, rfl⟩ : ∃ f2, f1 = f2 + 1 := ⟨f1 - 1, by omega⟩
      by_cases hav : availableAt acc.currentTime rem = []
      · -- idle iteration, then a dispatch
        have hb1 := whileBody_idle (s := ⟨acc, rem⟩) hav
        simp only at hb1
        have hb2 := whileBody_dispatch
          (s := ⟨{ acc with currentTime := nextClock acc.currentTime rem }, rem⟩) hnx
        simp only at hb2
        have hstep : whileLoop (f2 + 1 + 1) ⟨acc, rem⟩ =
            whileLoop f2 (whileBody (whileBody ⟨acc, rem⟩)) := by
          rw [whileLoop]
          simp only [hpos, if_true]
          rw [hb1, whileLoop]
          simp only [hpos, if_true, gt_iff_lt]
        rw [hstep, hb1, hb2, ih _ _ (by simp only; omega) (by simp only; omega), htrace]
        simp only [Acc.extend_extend, Acc.extend_cons_clock]
        simp [Acc.extend, clockAfter]
      · -- a dispatch at the current clock
        have hnc : nextClock acc.currentTime rem = acc.currentTime := by
          simp [nextClock, hav]
        rw [hnc] at hnx htrace
        have hb := whileBody_dispatch (s := ⟨acc, rem⟩) hnx
        simp only at hb
        have hstep : whileLoop (f2 + 1 + 1) ⟨acc, rem⟩ =
            whileLoop (f2 + 1) (whileBody ⟨acc, rem⟩) := by
          rw [whileLoop]
          simp only [hpos, if_true, gt_iff_lt]
        rw [hstep, hb, ih _ _ (by simp only; omega) (by simp only; omega), htrace]
        simp only [Acc.extend_extend]
        simp [Acc.extend, clockAfter]

/-- With enough fuel the run returns, and its accumulators are those of the trace. -/
theorem sjfRun_eq (patients : List Patient) (fuel : Nat)
    (hf : 2 * (nonCriticalOf patients).length ≤ fuel) :
    sjfRun fuel patients = some ((initAcc patients).extend (trace patients)) := by
  unfold sjfRun
  simp only
  rw [whileLoop_eq (nonCriticalOf patients).length _ _ (le_refl _) hf, foldl_schedulePatient]
  simp [trace, Acc.extend_extend, Acc.extend, clockAfter]

/-! ## Properties of the trace -/

theorem timeline_append (A : List Int) (c : Int) (ds es : List Disp) :
    Timeline A c (ds ++ es) ↔ Timeline A c ds ∧ Timeline A (clockAfter c ds) es := by
  induction ds generalizing c with
  | nil => simp [Timeline, clockAfter]
  | cons d ds ih =>
    have h := ih (numAdd d.2 d.1.2.treatmentTime)
    show (c ≤ d.2 ∧ d.1.2.arrivalMinutes ≤ d.2 ∧ (d.2 = c ∨ d.2 ∈ A) ∧
        Timeline A (numAdd d.2 d.1.2.treatmentTime) (ds ++ es)) ↔
      (c ≤ d.2 ∧ d.1.2.arrivalMinutes ≤ d.2 ∧ (d.2 = c ∨ d.2 ∈ A) ∧
        Timeline A (numAdd d.2 d.1.2.treatmentTime) ds) ∧
        Timeline A (clockAfter (numAdd d.2 d.1.2.treatmentTime) ds) es
    rw [h]
    tauto

theorem timeline_critTrace (A : List Int) (crit : List Obj) (c : Int)
    (hA : ∀ o ∈ crit, o.2.arrivalMinutes ∈ A) : Timeline A c (critTrace c crit) := by
  induction crit generalizing c with
  | nil => simp [critTrace, Timeline]
  | cons p ps ih =>
    simp only [critTrace, Timeline]
    refine ⟨le_max_left _ _, le_max_right _ _, ?_,
      ih _ (fun o ho => hA o (List.mem_cons_of_mem _ ho))⟩
    rcases max_choice c p.2.arrivalMinutes with h | h
    · exact Or.inl h
    · exact Or.inr (by rw [h]; exact hA p (List.mem_cons_self _ _))

theorem le_nextClock (c : Int) {remaining : List Obj} (hne : remaining ≠ []) :
    c ≤ nextClock c remaining := by
  unfold nextClock
  split
  · next h =>
    have hne' : remaining.map (fun p => p.2.arrivalMinutes) ≠ [] := by simpa using hne
    obtain ⟨p, hp, hpe⟩ := List.mem_map.1 (mathMin_mem hne')
    rw [← hpe]
    by_contra hlt
    have : p ∈ availableAt c remaining := by
      simp only [availableAt, List.mem_filter, decide_eq_true_eq]
      exact ⟨hp, by omega⟩
    rw [h] at this
    simp at this
  · exact le_refl _

/-- Unfolding of the non-critical trace at a non-empty working set. -/
theorem nextClock_mem (c : Int) {remaining : List Obj} (hne : remaining ≠ []) :
    nextClock c remaining = c ∨
      nextClock c remaining ∈ remaining.map (fun p => p.2.arrivalMinutes) := by
  unfold nextClock
  split
  · exact Or.inr (mathMin_mem (by simpa using hne))
  · exact Or.inl rfl

/-- Unfolding of the non-critical trace at a non-empty working set. -/
theorem ncTrace_succ (n : Nat) (c : Int) {remaining : List Obj} (hne : remaining ≠ []) :
    ∃ nx, selectNext (availableAt (nextClock c remaining) remaining) = some nx ∧
      ncTrace (n + 1) c remaining =
        (nx, nextClock c remaining) ::
          ncTrace n (numAdd (nextClock c remaining) nx.2.treatmentTime)
            (remaining.filter (fun p => p.1 != nx.1)) := by
  obtain ⟨nx, hnx⟩ := selectNext_isSome (availableAt_nextClock_ne_nil (c := c) hne)
  exact ⟨nx, hnx, by simp [ncTrace, hnx]⟩

theorem timeline_ncTrace (A : List Int) (n : Nat) (c : Int) (remaining : List Obj)
    (hA : ∀ o ∈ remaining, o.2.arrivalMinutes ∈ A) :
    Timeline A c (ncTrace n c remaining) := by
  induction n generalizing c remaining with
  | zero => simp [ncTrace, Timeline]
  | succ n ih =>
    by_cases hne : remaining = []
    · subst hne
      simp [ncTrace_nil, Timeline]
    · obtain ⟨nx, hnx, htr⟩ := ncTrace_succ n c hne
      rw [htr]
      refine ⟨le_nextClock c hne, ?_, ?_,
        ih _ _ (fun o ho => hA o (List.mem_filter.1 ho).1)⟩
      · have := (selectNext_spec hnx).1
        simp only [availableAt, List.mem_filter, decide_eq_true_eq] at this
        exact this.2
      · rcases nextClock_mem c hne with h | h
        · exact Or.inl h
        · obtain ⟨o, ho, hoe⟩ := List.mem_map.1 h
          exact Or.inr (by rw [← hoe]; exact hA o ho)

/-- Every dispatch of the non-critical trace, described from the dispatches before it:
it starts at `nextClock` of the clock they leave, and serves the `reduce` choice among
the patients not served by them that have arrived by then. -/
theorem ncTrace_split (n : Nat) : ∀ (c : Int) (remaining : List Obj) (pre : List Disp)
    (d : Disp) (post : List Disp), ncTrace n c remaining = pre ++ d :: post →
    d.2 = nextClock (clockAfter c pre)
        (remaining.filter (fun p => decide (p.1 ∉ pre.map (fun e => e.1.1)))) ∧
    selectNext (availableAt d.2
        (remaining.filter (fun p => decide (p.1 ∉ pre.map (fun e => e.1.1))))) = some d.1 := by
  induction n with
  | zero =>
    intro c remaining pre d post h
    simp [ncTrace] at h
  | succ n ih =>
    intro c remaining pre d post h
    by_cases hne : remaining = []
    · subst hne
      simp [ncTrace_nil] at h
    · obtain ⟨nx, hnx, htr⟩ := ncTrace_succ n c hne
      rw [htr] at h
      cases pre with
      | nil =>
        simp only [List.nil_append, List.cons.injEq] at h
        obtain ⟨hd, -⟩ := h
        subst hd
        simp [clockAfter, hnx]
      | cons e pre =>
        simp only [List.cons_append, List.cons.injEq] at h
        obtain ⟨he, hrest⟩ := h
        subst he
        have := ih _ _ pre d post hrest
        simp only [List.filter_filter] at this
        have hf : (remaining.filter (fun p =>
              decide (p.1 ∉ ((nx, nextClock c remaining) :: pre).map (fun e => e.1.1)))) =
            (remaining.filter (fun a =>
              decide (a.1 ∉ pre.map (fun e => e.1.1)) && (a.1 != nx.1))) := by
          apply List.filter_congr
          intro x _
          by_cases h1 : x.1 = nx.1
          · simp [h1]
          · have h2 : (x.1 == nx.1) = false := by simpa using h1
            simp [h1, h2, bne]
        rw [hf]
        simpa [clockAfter] using this

theorem filter_ne_eq_self {l : List Obj} {k : Nat} (h : k ∉ l.map Prod.fst) :
    l.filter (fun p => p.1 != k) = l := by
  apply List.filter_eq_self.2
  intro x hx
  have : x.1 ≠ k := fun h' => h (h' ▸ List.mem_map_of_mem Prod.fst hx)
  simpa using this

theorem perm_cons_filter_ne {remaining : List Obj} {nx : Obj} (h : nx ∈ remaining)
    (hnd : (remaining.map Prod.fst).Nodup) :
    (nx :: remaining.filter (fun p => p.1 != nx.1)).Perm remaining := by
  induction remaining with
  | nil => simp at h
  | cons a as ih =>
    rw [List.map_cons, List.nodup_cons] at hnd
    by_cases ha : a.1 = nx.1
    · have hnm : nx ∉ as := fun hm => hnd.1 (ha ▸ List.mem_map_of_mem Prod.fst hm)
      have hxa : nx = a := by
        rcases List.mem_cons.1 h with h' | h'
        · exact h'
        · exact absurd h' hnm
      subst hxa
      have : (List.filter (fun p => p.1 != nx.1) (nx :: as)) = as := by
        rw [List.filter_cons]
        simp only [bne_self_eq_false, Bool.false_eq_true, if_false]
        exact filter_ne_eq_self hnd.1
      rw [this]
    · have hmem : nx ∈ as := by
        rcases List.mem_cons.1 h with h' | h'
        · exact absurd (by rw [h']) ha
        · exact h'
      have : (List.filter (fun p => p.1 != nx.1) (a :: as)) =
          a :: List.filter (fun p => p.1 != nx.1) as := by
        simp [List.filter_cons, ha]
      rw [this]
      exact (List.Perm.swap _ _ _).trans ((ih hmem hnd.2).cons a)

theorem nodup_filter_fst {remaining : List Obj} (q : Obj → Bool)
    (hnd : (remaining.map Prod.fst).Nodup) : ((remaining.filter q).map Prod.fst).Nodup :=
  hnd.sublist ((List.filter_sublist remaining).map Prod.fst)

/-- The non-critical trace serves every patient of the working set exactly once. -/
theorem ncTrace_perm (n : Nat) : ∀ (c : Int) (remaining : List Obj),
    remaining.length ≤ n → (remaining.map Prod.fst).Nodup →
    ((ncTrace n c remaining).map Prod.fst).Perm remaining := by
  induction n with
  | zero =>
    intro c remaining hn _
    have h0 : remaining = [] := List.length_eq_zero.1 (Nat.le_zero.1 hn)
    subst h0
    simp [ncTrace]
  | succ n ih =>
    intro c remaining hn hnd
    by_cases hne : remaining = []
    · subst hne
      simp [ncTrace_nil]
    · obtain ⟨nx, hnx, htr⟩ := ncTrace_succ n c hne
      have hmem : nx ∈ remaining := by
        have := (selectNext_spec hnx).1
        simp only [availableAt, List.mem_filter] at this
        exact this.1
      have hlt := length_filter_ne_lt hmem
      rw [htr, List.map_cons]
      exact ((ih _ _ (by omega) (nodup_filter_fst _ hnd)).cons nx).trans
        (perm_cons_filter_ne hmem hnd)

theorem critTrace_map_fst (crit : List Obj) (c : Int) :
    (critTrace c crit).map Prod.fst = crit := by
  induction crit generalizing c with
  | nil => simp [critTrace]
  | cons p ps ih => simp [critTrace, ih]

/-! ## The trace of a run and the input list -/

theorem nodup_enum_fst (patients : List Patient) : (patients.enum.map Prod.fst).Nodup := by
  rw [List.enum_map_fst]
  exact List.nodup_range _

theorem criticalOf_perm (patients : List Patient) :
    (criticalOf patients).Perm (patients.enum.filter (fun p => p.2.criticality = "critical")) :=
  List.perm_insertionSort _ _

theorem nonCriticalOf_perm (patients : List Patient) :
    (nonCriticalOf patients).Perm
      (patients.enum.filter (fun p => p.2.criticality = "non-critical")) :=
  List.perm_insertionSort _ _

theorem nonCriticalOf_length_le (patients : List Patient) :
    (nonCriticalOf patients).length ≤ patients.length := by
  rw [(nonCriticalOf_perm patients).length_eq]
  exact (List.length_filter_le _ _).trans (by simp)

theorem nodup_nonCriticalOf (patients : List Patient) :
    ((nonCriticalOf patients).map Prod.fst).Nodup :=
  (((nonCriticalOf_perm patients).map Prod.fst).nodup_iff).2
    (nodup_filter_fst _ (nodup_enum_fst patients))

/-- The trace splits into a critical part, which serves `criticalOf` in order, and a
non-critical part, which serves a rearrangement of `nonCriticalOf`. -/
theorem trace_parts (patients : List Patient) :
    ∃ cs ns : List Disp, trace patients = cs ++ ns ∧
      cs = critTrace (initAcc patients).currentTime (criticalOf patients) ∧
      ns = ncTrace (nonCriticalOf patients).length
        (clockAfter (initAcc patients).currentTime cs) (nonCriticalOf patients) ∧
      cs.map Prod.fst = criticalOf patients ∧
      (ns.map Prod.fst).Perm (nonCriticalOf patients) :=
  ⟨_, _, rfl, rfl, rfl, critTrace_map_fst _ _,
    ncTrace_perm _ _ _ (le_refl _) (nodup_nonCriticalOf patients)⟩

theorem trace_map_fst_perm (patients : List Patient) :
    ((trace patients).map Prod.fst).Perm
      (patients.enum.filter (fun p => p.2.criticality = "critical") ++
        patients.enum.filter (fun p => p.2.criticality = "non-critical")) := by
  obtain ⟨cs, ns, h, -, -, hc, hn⟩ := trace_parts patients
  rw [h, List.map_append, hc]
  exact (criticalOf_perm patients).append (hn.trans (nonCriticalOf_perm patients))

theorem trace_mem_enum {patients : List Patient} {d : Disp} (h : d ∈ trace patients) :
    d.1 ∈ patients.enum ∧
      (d.1.2.criticality = "critical" ∨ d.1.2.criticality = "non-critical") := by
  have := (trace_map_fst_perm patients).subset (List.mem_map_of_mem Prod.fst h)
  simp only [List.mem_append, List.mem_filter, decide_eq_true_eq] at this
  rcases this with ⟨h1, h2⟩ | ⟨h1, h2⟩
  · exact ⟨h1, Or.inl h2⟩
  · exact ⟨h1, Or.inr h2⟩

theorem mem_of_mem_enum {patients : List Patient} {o : Obj} (h : o ∈ patients.enum) :
    o.2 ∈ patients := by
  have := List.mem_map_of_mem Prod.snd h
  rwa [List.enum_map_snd] at this

theorem trace_mem_patients {patients : List Patient} {d : Disp} (h : d ∈ trace patients) :
    d.1.2 ∈ patients :=
  mem_of_mem_enum (trace_mem_enum h).1

theorem critical_ne_nonCritical : ("critical" : String) ≠ "non-critical" := by decide

theorem trace_nodup (patients : List Patient) :
    ((trace patients).map (fun d => d.1.1)).Nodup := by
  have h := (trace_map_fst_perm patients).map Prod.fst
  rw [List.map_map] at h
  have h2 : (trace patients).map (fun d => d.1.1) = (trace patients).map (Prod.fst ∘ Prod.fst) := rfl
  rw [h2, h.nodup_iff, List.map_append]
  refine List.Nodup.append (nodup_filter_fst _ (nodup_enum_fst patients))
    (nodup_filter_fst _ (nodup_enum_fst patients)) ?_
  intro k hk1 hk2
  obtain ⟨o1, ho1, rfl⟩ := List.mem_map.1 hk1
  obtain ⟨o2, ho2, he⟩ := List.mem_map.1 hk2
  simp only [List.mem_filter, decide_eq_true_eq] at ho1 ho2
  have := List.inj_on_of_nodup_map (nodup_enum_fst patients) ho2.1 ho1.1 he
  subst this
  exact critical_ne_nonCritical (ho1.2.symm.trans ho2.2)

/-- When every class is recognised, the run serves every patient exactly once. -/
theorem trace_perm_patients {patients : List Patient} (hv : ValidClasses patients) :
    ((trace patients).map (fun d => d.1.2)).Perm patients := by
  have h := (trace_map_fst_perm patients).map Prod.snd
  rw [List.map_map] at h
  have h2 : (trace patients).map (fun d => d.1.2) = (trace patients).map (Prod.snd ∘ Prod.fst) := rfl
  rw [h2]
  refine h.trans ?_
  have hf : patients.enum.filter (fun p => decide (p.2.criticality = "non-critical")) =
      patients.enum.filter (fun p => !decide (p.2.criticality = "critical")) := by
    apply List.filter_congr
    intro x hx
    rcases hv x.2 (mem_of_mem_enum hx) with h' | h'
    · simp [h', critical_ne_nonCritical]
    · simp [h', critical_ne_nonCritical.symm]
  rw [hf]
  have := (List.filter_append_perm (fun p : Obj => decide (p.2.criticality = "critical"))
    patients.enum).map Prod.snd
  rwa [List.enum_map_snd] at this

theorem arrival_mem_of_mem_enum {patients : List Patient} {o : Obj} (h : o ∈ patients.enum) :
    o.2.arrivalMinutes ∈ patients.map (fun p => p.arrivalMinutes) :=
  List.mem_map_of_mem (fun p : Patient => p.arrivalMinutes) (mem_of_mem_enum h)

theorem timeline_trace (patients : List Patient) :
    Timeline (patients.map (fun p => p.arrivalMinutes)) (initAcc patients).currentTime
      (trace patients) := by
  unfold trace
  simp only
  rw [timeline_append]
  refine ⟨timeline_critTrace _ _ _ ?_, timeline_ncTrace _ _ _ _ ?_⟩
  · intro o ho
    exact arrival_mem_of_mem_enum (List.mem_filter.1 ((criticalOf_perm patients).subset ho)).1
  · intro o ho
    exact arrival_mem_of_mem_enum
      (List.mem_filter.1 ((nonCriticalOf_perm patients).subset ho)).1

/-- With enough fuel `sjfScheduling` returns, and its result is read off the trace. -/
theorem sjfScheduling_eq (patients : List Patient) (fuel : Nat)
    (hf : 2 * (nonCriticalOf patients).length ≤ fuel) :
    sjfScheduling fuel patients = some
      { schedule := (trace patients).map Disp.interval
        metrics :=
          { avgWaitingTime := average ((trace patients).map Disp.waiting)
            avgTurnaroundTime := average ((trace patients).map Disp.turnaround) } } := by
  unfold sjfScheduling
  rw [sjfRun_eq patients fuel hf]
  simp [Acc.extend, initAcc]

theorem enough_fuel {patients : List Patient} {fuel : Nat} (hf : 2 * patients.length ≤ fuel) :
    2 * (nonCriticalOf patients).length ≤ fuel :=
  le_trans (Nat.mul_le_mul_left 2 (nonCriticalOf_length_le patients)) hf

/-- Under distinct identifiers a dispatch is determined by the identifier it serves. -/
theorem eq_of_id_eq {patients : List Patient} (hd : DistinctIds patients) {p q : Patient}
    (hp : p ∈ patients) (hq : q ∈ patients) (h : p.id = q.id) : p = q :=
  List.inj_on_of_nodup_map hd hp hq h

/-- In a timeline run from a clock, over arrival times that are numbers, with
non-negative treatment times: every start is a clock value at or after the initial
clock, no interval ends before it starts, and intervals follow one another. -/
theorem timeline_lower {A : List Int} {c : Int} {ds : List Disp} (ht : Timeline A c ds)
    (hc : IsClock c) (hA : ∀ a ∈ A, IsClock a)
    (hpos : ∀ d ∈ ds, 0 ≤ d.1.2.treatmentTime) :
    (∀ d ∈ ds, c ≤ d.2 ∧ IsClock d.2 ∧ d.2 ≤ numAdd d.2 d.1.2.treatmentTime) ∧
      ds.Pairwise (fun a b => numAdd a.2 a.1.2.treatmentTime ≤ b.2) := by
  induction ds generalizing c with
  | nil => simp
  | cons d ds ih =>
    obtain ⟨h1, -, h3, h4⟩ := ht
    have hd := hpos d (List.mem_cons_self _ _)
    have hcd : IsClock d.2 := by
      rcases h3 with h | h
      · rw [h]; exact hc
      · exact hA _ h
    obtain ⟨hle, hck⟩ := le_numAdd hcd hd
    obtain ⟨ih1, ih2⟩ := ih h4 hck (fun e he => hpos e (List.mem_cons_of_mem _ he))
    refine ⟨?_, List.pairwise_cons.2 ⟨fun e he => (ih1 e he).1, ih2⟩⟩
    intro e he
    rcases List.mem_cons.1 he with rfl | he
    · exact ⟨h1, hcd, hle⟩
    · obtain ⟨h5, h6, h7⟩ := ih1 e he
      exact ⟨by omega, h6, h7⟩

theorem timeline_arrival {A : List Int} {c : Int} {ds : List Disp} (ht : Timeline A c ds) :
    ∀ d ∈ ds, d.1.2.arrivalMinutes ≤ d.2 := by
  induction ds generalizing c with
  | nil => simp
  | cons d ds ih =>
    obtain ⟨-, h2, -, h4⟩ := ht
    intro e he
    rcases List.mem_cons.1 he with rfl | he
    · exact h2
    · exact ih h4 e he

/-- In a timeline whose arrival times lie in `[0, M]` and whose clock, `M` and treatment
times add up to less than `2 ^ 53`, every start is non-negative and every end is at most
that sum: all sums are exact. -/
theorem timeline_exact {A : List Int} {M : Int} (hA : ∀ a ∈ A, 0 ≤ a ∧ a ≤ M) :
    ∀ (ds : List Disp) (c s : Int), Timeline A c ds →
      (∀ d ∈ ds, 0 ≤ d.1.2.treatmentTime) → 0 ≤ s → 0 ≤ c → c ≤ M + s →
      M + s + (ds.map (fun d => d.1.2.treatmentTime)).sum < 9007199254740992 →
      ∀ d ∈ ds, 0 ≤ d.2 ∧
        d.2 + d.1.2.treatmentTime ≤ M + s + (ds.map (fun d => d.1.2.treatmentTime)).sum := by
  intro ds
  induction ds with
  | nil => simp
  | cons d ds ih =>
    intro c s ht hpos hs hc hcs hsum
    obtain ⟨h1, -, h3, h4⟩ := ht
    have hd := hpos d (List.mem_cons_self _ _)
    have hrest : 0 ≤ (ds.map (fun d => d.1.2.treatmentTime)).sum :=
      List.sum_nonneg (fun x hx => by
        obtain ⟨e, he, rfl⟩ := List.mem_map.1 hx
        exact hpos e (List.mem_cons_of_mem _ he))
    simp only [List.map_cons, List.sum_cons] at hsum ⊢
    have hd2 : 0 ≤ d.2 ∧ d.2 ≤ M + s := by
      rcases h3 with h | h
      · rw [h]; exact ⟨hc, hcs⟩
      · have := hA _ h
        exact ⟨this.1, by omega⟩
    have hex : numAdd d.2 d.1.2.treatmentTime = d.2 + d.1.2.treatmentTime :=
      numAdd_exact (by omega) (by omega) (by omega) (by omega)
    rw [hex] at h4
    have := ih (d.2 + d.1.2.treatmentTime) (s + d.1.2.treatmentTime) h4
      (fun e he => hpos e (List.mem_cons_of_mem _ he)) (by omega) (by omega) (by omega)
      (by omega)
    intro e he
    rcases List.mem_cons.1 he with rfl | he
    · exact ⟨hd2.1, by omega⟩
    · have := this e he
      exact ⟨this.1, by omega⟩

/-! ## The stable sort and the two passes -/

theorem sortByArrival_sorted (xs : List Obj) :
    (sortByArrival xs).Pairwise (fun a b => a.2.arrivalMinutes ≤ b.2.arrivalMinutes) :=
  List.sorted_insertionSort arrivalLe xs

theorem orderedInsert_filter_arrival (t : Int) (x : Obj) (l : List Obj) :
    (l.orderedInsert arrivalLe x).filter (fun p => decide (p.2.arrivalMinutes = t)) =
      (x :: l).filter (fun p => decide (p.2.arrivalMinutes = t)) := by
  induction l with
  | nil => simp
  | cons b l ih =>
    rw [List.orderedInsert]
    split
    · rfl
    · next h =>
      have hlt : b.2.arrivalMinutes < x.2.arrivalMinutes := by
        unfold arrivalLe at h
        omega
      rw [List.filter_cons, ih]
      by_cases hx : x.2.arrivalMinutes = t
      · have hb : ¬ b.2.arrivalMinutes = t := by omega
        simp [List.filter_cons, hx, hb]
      · simp [List.filter_cons, hx]

/-- The sort is stable: patients with one arrival time keep their order. -/
theorem sortByArrival_stable (t : Int) (xs : List Obj) :
    (sortByArrival xs).filter (fun p => decide (p.2.arrivalMinutes = t)) =
      xs.filter (fun p => decide (p.2.arrivalMinutes = t)) := by
  induction xs with
  | nil => rfl
  | cons x xs ih =>
    show ((sortByArrival xs).orderedInsert arrivalLe x).filter _ = _
    rw [orderedInsert_filter_arrival, List.filter_cons, ih, List.filter_cons]

theorem enum_filter_map_snd (patients : List Patient) (q : Patient → Bool) :
    (patients.enum.filter (fun o => q o.2)).map Prod.snd = patients.filter q := by
  have h := List.filter_map (p := q) (f := Prod.snd) (l := patients.enum)
  rw [List.enum_map_snd] at h
  rw [h]
  rfl

theorem nonCriticalOf_length (patients : List Patient) :
    (nonCriticalOf patients).length =
      (patients.filter (fun p => p.criticality = "non-critical")).length := by
  rw [(nonCriticalOf_perm patients).length_eq,
    ← enum_filter_map_snd patients (fun p => p.criticality = "non-critical"), List.length_map]

/-- The classes of the two parts of the trace. -/
theorem trace_parts_class (patients : List Patient) :
    ∃ cs ns : List Disp, trace patients = cs ++ ns ∧
      cs.map Prod.fst = criticalOf patients ∧
      ns = ncTrace (nonCriticalOf patients).length
        (clockAfter (initAcc patients).currentTime cs) (nonCriticalOf patients) ∧
      (∀ d ∈ cs, d.1.2.criticality = "critical") ∧
      (∀ d ∈ ns, d.1.2.criticality = "non-critical" ∧ d.1 ∈ nonCriticalOf patients) := by
  obtain ⟨cs, ns, h, -, hns, hc, hn⟩ := trace_parts patients
  refine ⟨cs, ns, h, hc, hns, ?_, ?_⟩
  · intro d hd
    have h1 : d.1 ∈ criticalOf patients := hc ▸ List.mem_map_of_mem Prod.fst hd
    have h2 := (criticalOf_perm patients).subset h1
    simp only [List.mem_filter, decide_eq_true_eq] at h2
    exact h2.2
  · intro d hd
    have h1 : d.1 ∈ nonCriticalOf patients := hn.subset (List.mem_map_of_mem Prod.fst hd)
    have h2 := (nonCriticalOf_perm patients).subset h1
    simp only [List.mem_filter, decide_eq_true_eq] at h2
    exact ⟨h2.2, h1⟩

theorem arrivalOf_eq {patients : List Patient} (hd : DistinctIds patients) {p : Patient}
    (hp : p ∈ patients) : arrivalOf patients p.id = p.arrivalMinutes := by
  unfold arrivalOf
  cases hfind : patients.find? (fun q => decide (q.id = p.id)) with
  | none =>
    have := List.find?_eq_none.1 hfind p hp
    simp at this
  | some q =>
    have h1 := List.find?_some hfind
    have h2 := List.mem_of_find?_eq_some hfind
    simp only [decide_eq_true_eq] at h1
    rw [eq_of_id_eq hd h2 hp h1]

/-! ## Ranges in which the arithmetic is exact -/

theorem foldl_max_spec (xs : List Int) (x : Int) :
    x ≤ xs.foldl max x ∧ ∀ y ∈ xs, y ≤ xs.foldl max x := by
  induction xs generalizing x with
  | nil => simp
  | cons a as ih =>
    obtain ⟨h1, h2⟩ := ih (max x a)
    refine ⟨le_trans (le_max_left _ _) h1, ?_⟩
    intro y hy
    rcases List.mem_cons.1 hy with rfl | hy
    · exact le_trans (le_max_right _ _) h1
    · exact h2 y hy

theorem le_latestArrival {patients : List Patient} {p : Patient} (h : p ∈ patients) :
    p.arrivalMinutes ≤ latestArrival patients :=
  (foldl_max_spec _ 0).2 _ (List.mem_map_of_mem (fun p : Patient => p.arrivalMinutes) h)

theorem isClock_arrivals {patients : List Patient} (ht : ValidTimes patients) :
    ∀ a ∈ patients.map (fun p => p.arrivalMinutes), IsClock a := by
  intro a ha
  obtain ⟨p, hp, rfl⟩ := List.mem_map.1 ha
  exact isClock_of_isNumber (ht p hp).1 (ht p hp).2.2.1

theorem isClock_initial {patients : List Patient} (ht : ValidTimes patients) :
    IsClock (initAcc patients).currentTime := by
  by_cases hne : patients = []
  · subst hne
    have := INF_pos
    exact ⟨INF_rep, by show (0 : Int) ≤ INF; omega, le_refl _⟩
  · exact isClock_arrivals ht _ (mathMin_mem (by simpa using hne))

/-- For valid times and classes within `SafeRange`, every start of the run is
non-negative and every end is at most the latest arrival plus all treatment times. -/
theorem trace_exact {patients : List Patient} (ht : ValidTimes patients)
    (hc : ValidClasses patients) (hs : SafeRange patients) :
    ∀ d ∈ trace patients, 0 ≤ d.2 ∧
      d.2 + d.1.2.treatmentTime ≤ latestArrival patients + totalTreatment patients := by
  by_cases hne : patients = []
  · subst hne
    have : trace [] = [] := by decide
    simp [this]
  · have hA : ∀ a ∈ patients.map (fun p => p.arrivalMinutes),
        0 ≤ a ∧ a ≤ latestArrival patients := by
      intro a ha
      obtain ⟨p, hp, rfl⟩ := List.mem_map.1 ha
      exact ⟨(ht p hp).2.2.1, le_latestArrival hp⟩
    have hc0 := hA _ (@mathMin_mem (patients.map (fun p => p.arrivalMinutes))
      (by simpa using hne))
    have hsum : ((trace patients).map (fun d => d.1.2.treatmentTime)).sum =
        totalTreatment patients := by
      have := ((trace_perm_patients hc).map (fun p : Patient => p.treatmentTime)).sum_eq
      rw [List.map_map] at this
      exact this
    have key := timeline_exact hA (trace patients) (initAcc patients).currentTime 0
      (timeline_trace patients)
      (fun d hd => le_of_lt (ht _ (trace_mem_patients hd)).2.2.2) (le_refl _) hc0.1
      (by simpa using hc0.2) (by rw [hsum]; simpa using hs)
    intro d hd
    have := key d hd
    rw [hsum] at this
    exact ⟨this.1, by omega⟩

/-- Within `SafeRange` the end, the turnaround time and the waiting time of a dispatch
are the exact integers. -/
theorem dispatch_exact {patients : List Patient} (ht : ValidTimes patients)
    (hc : ValidClasses patients) (hs : SafeRange patients) {d : Disp}
    (hd : d ∈ trace patients) :
    numAdd d.2 d.1.2.treatmentTime = d.2 + d.1.2.treatmentTime ∧
      Disp.turnaround d = d.2 + d.1.2.treatmentTime - d.1.2.arrivalMinutes ∧
      Disp.waiting d = d.2 - d.1.2.arrivalMinutes := by
  obtain ⟨h1, h2'⟩ := trace_exact ht hc hs d hd
  have h2 : d.2 + d.1.2.treatmentTime < 9007199254740992 := lt_of_le_of_lt h2' hs
  obtain ⟨-, -, h3, h4⟩ := ht _ (trace_mem_patients hd)
  have h5 := timeline_arrival (timeline_trace patients) d hd
  have e1 : numAdd d.2 d.1.2.treatmentTime = d.2 + d.1.2.treatmentTime :=
    numAdd_exact (by omega) (by omega) (by omega) (by omega)
  have e2 : Disp.turnaround d = d.2 + d.1.2.treatmentTime - d.1.2.arrivalMinutes := by
    unfold Disp.turnaround
    rw [e1]
    exact numSub_exact (by omega) (by omega) (by omega) (by omega)
  refine ⟨e1, e2, ?_⟩
  unfold Disp.waiting
  rw [e2, numSub_exact (by omega) (by omega) (by omega) (by omega)]
  omega

theorem foldl_numAddFull_exact (xs : List Int) : ∀ acc : Int, (∀ x ∈ xs, 0 ≤ x) → 0 ≤ acc →
    acc + xs.sum < 9007199254740992 →
    xs.foldl (fun sum x => sum.bind (fun s => numAddFull s x)) (some acc) =
      some (acc + xs.sum) := by
  induction xs with
  | nil => simp
  | cons x xs ih =>
    intro acc hx hacc hsum
    have hx0 := hx x (List.mem_cons_self _ _)
    have hrest : 0 ≤ xs.sum := List.sum_nonneg (fun y hy => hx y (List.mem_cons_of_mem _ hy))
    simp only [List.sum_cons] at hsum
    simp only [List.foldl_cons, Option.some_bind]
    rw [numAddFull_exact (by omega) (by omega) (by omega) (by omega) (by omega) (by omega),
      ih (acc + x) (fun y hy => hx y (List.mem_cons_of_mem _ hy)) (by omega) (by omega),
      List.sum_cons, add_assoc]

/-- The average of non-negative integers whose sum is below `2 ^ 53` is the quotient of
the exact sum by the length. -/
theorem average_exact {xs : List Int} (hne : xs ≠ []) (hx : ∀ x ∈ xs, 0 ≤ x)
    (hsum : xs.sum < 9007199254740992) : average xs = numDiv xs.sum xs.length := by
  have hlen : xs.length > 0 := List.length_pos.2 hne
  have h := foldl_numAddFull_exact xs 0 hx (le_refl _) (by simpa using hsum)
  simp only [zero_add] at h
  simp only [average, hlen, if_true, sumOf, h]

theorem sum_le_length_mul {xs : List Int} {B : Int} (h : ∀ x ∈ xs, x ≤ B) :
    xs.sum ≤ (xs.length : Int) * B := by
  induction xs with
  | nil => simp
  | cons x xs ih =>
    have h1 := h x (List.mem_cons_self _ _)
    have h2 := ih (fun y hy => h y (List.mem_cons_of_mem _ hy))
    simp only [List.sum_cons, List.length_cons, Nat.cast_add, Nat.cast_one]
    rw [add_mul, one_mul]
    omega

/-! ## Positions of the schedule and dispatch decisions -/

theorem split_of_getElem? {α : Type} {l : List α} {i : Nat} {a : α} (h : l[i]? = some a) :
    l = l.take i ++ a :: l.drop (i + 1) := by
  obtain ⟨hi, rfl⟩ := List.getElem?_eq_some_iff.1 h
  rw [← List.drop_eq_getElem_cons hi, List.take_append_drop]

theorem mem_take_iff_getElem? {α : Type} {l : List α} {j : Nat} {a : α} :
    a ∈ l.take j ↔ ∃ i, i < j ∧ l[i]? = some a := by
  constructor
  · intro h
    obtain ⟨i, hi⟩ := List.mem_iff_getElem?.1 h
    have hlt : i < j := by
      by_contra hge
      rw [List.getElem?_take_eq_none (by omega)] at hi
      exact absurd hi (by simp)
    exact ⟨i, hlt, by rwa [List.getElem?_take_of_lt hlt] at hi⟩
  · rintro ⟨i, hlt, hi⟩
    rw [← List.getElem?_take_of_lt hlt] at hi
    exact List.getElem?_mem hi

theorem mem_drop_of_lt {α : Type} {l : List α} {i j : Nat} {b : α} (hij : i < j)
    (hb : l[j]? = some b) : b ∈ l.drop (i + 1) := by
  have : (l.drop (i + 1))[j - (i + 1)]? = some b := by
    rw [List.getElem?_drop]
    have : i + 1 + (j - (i + 1)) = j := by omega
    rw [this, hb]
  exact List.getElem?_mem this

theorem clockAfter_eq_getLast (c : Int) (ds : List Disp) :
    clockAfter c ds =
      match (ds.map Disp.interval).getLast? with
      | some l => l.stop
      | none => c := by
  induction ds using List.reverseRecOn with
  | nil => rfl
  | append_singleton ds d _ =>
    simp [clockAfter, List.foldl_append, Disp.interval]

theorem mem_enum_of_mem {patients : List Patient} {p : Patient} (hp : p ∈ patients) :
    ∃ i, (i, p) ∈ patients.enum := by
  obtain ⟨i, hi⟩ := List.mem_iff_getElem?.1 hp
  exact ⟨i, List.mk_mem_enum_iff_getElem?.2 hi⟩

theorem enum_fst_inj {patients : List Patient} {o1 o2 : Obj} (h1 : o1 ∈ patients.enum)
    (h2 : o2 ∈ patients.enum) (h : o1.1 = o2.1) : o1 = o2 :=
  List.inj_on_of_nodup_map (nodup_enum_fst patients) h1 h2 h

theorem enum_id_inj {patients : List Patient} (hd : DistinctIds patients) {o1 o2 : Obj}
    (h1 : o1 ∈ patients.enum) (h2 : o2 ∈ patients.enum) (h : o1.2.id = o2.2.id) :
    o1 = o2 := by
  have hnd : (patients.enum.map (fun o : Obj => o.2.id)).Nodup := by
    have : patients.enum.map (fun o : Obj => o.2.id) =
        (patients.enum.map Prod.snd).map (fun p => p.id) := by
      rw [List.map_map]
      rfl
    rw [this, List.enum_map_snd]
    exact hd
  exact List.inj_on_of_nodup_map hnd h1 h2 h

theorem mem_nonCriticalOf {patients : List Patient} {o : Obj} :
    o ∈ nonCriticalOf patients ↔ o ∈ patients.enum ∧ o.2.criticality = "non-critical" := by
  rw [(nonCriticalOf_perm patients).mem_iff]
  simp [List.mem_filter]

/-- The decision behind a non-critical dispatch of a run: with `R` the non-critical
objects not served before it, it starts at `nextClock` of the clock left by the
dispatches before it and serves the `reduce` choice among the arrived objects of `R`. -/
theorem trace_nc_split {patients : List Patient} {pre post : List Disp} {d : Disp}
    (h : trace patients = pre ++ d :: post) (hd : d.1.2.criticality = "non-critical") :
    d.2 = nextClock (clockAfter (initAcc patients).currentTime pre)
        ((nonCriticalOf patients).filter (fun p => decide (p.1 ∉ pre.map (fun e => e.1.1)))) ∧
    selectNext (availableAt d.2
        ((nonCriticalOf patients).filter
          (fun p => decide (p.1 ∉ pre.map (fun e => e.1.1))))) = some d.1 := by
  obtain ⟨cs, ns, hsplit, hcs, hns, hcc, hnc⟩ := trace_parts_class patients
  -- the dispatch lies in the non-critical part
  have hex : ∃ pre', pre = cs ++ pre' ∧ ns = pre' ++ d :: post := by
    rw [hsplit] at h
    rcases List.append_eq_append_iff.1 h with ⟨a', h1, h2⟩ | ⟨c', h1, h2⟩
    · exact ⟨a', h1, h2⟩
    · cases c' with
      | nil =>
        refine ⟨[], by simpa using h1.symm, by simpa using h2.symm⟩
      | cons e c' =>
        simp only [List.cons_append, List.cons.injEq] at h2
        have hmem : d ∈ cs := by
          rw [h1, h2.1]
          simp
        have := hcc d hmem
        rw [hd] at this
        exact absurd this.symm critical_ne_nonCritical
  obtain ⟨pre', hpre, hns'⟩ := hex
  have key := ncTrace_split _ _ _ pre' d post (hns ▸ hns')
  have hclock : clockAfter (initAcc patients).currentTime pre =
      clockAfter (clockAfter (initAcc patients).currentTime cs) pre' := by
    rw [hpre]
    simp [clockAfter, List.foldl_append]
  have hfilter : (nonCriticalOf patients).filter
        (fun p => decide (p.1 ∉ pre.map (fun e => e.1.1))) =
      (nonCriticalOf patients).filter
        (fun p => decide (p.1 ∉ pre'.map (fun e => e.1.1))) := by
    apply List.filter_congr
    intro x hx
    have hx' := mem_nonCriticalOf.1 hx
    have hnot : x.1 ∉ cs.map (fun e => e.1.1) := by
      intro hm
      obtain ⟨e, he, hee⟩ := List.mem_map.1 hm
      have hem : e ∈ trace patients := by
        rw [hsplit]
        exact List.mem_append_left _ he
      have := enum_fst_inj (trace_mem_enum hem).1 hx'.1 hee
      have hc := hcc e he
      rw [this, hx'.2] at hc
      exact critical_ne_nonCritical hc.symm
    rw [hpre]
    simp [hnot]
  rw [hclock, hfilter]
  exact key

/-- Objects served at two different positions of a run are different. -/
theorem trace_not_mem_pre {patients : List Patient} {pre post : List Disp} {d e : Disp}
    (h : trace patients = pre ++ d :: post) (he : e ∈ d :: post) :
    e.1.1 ∉ pre.map (fun x => x.1.1) := by
  have hnd := trace_nodup patients
  rw [h, List.map_append] at hnd
  intro hm
  exact (List.nodup_append.1 hnd).2.2 hm (List.mem_map_of_mem (fun x : Disp => x.1.1) he)

/-- The non-critical patients whose identifier is not among the intervals of `pre` are
the fields of the non-critical objects not served by `pre`. -/
theorem remaining_mem_iff {patients : List Patient} (hd : DistinctIds patients)
    {pre : List Disp} (hsub : ∀ e ∈ pre, e ∈ trace patients) (p : Patient) :
    (p ∈ patients ∧ p.criticality = "non-critical" ∧
        p.id ∉ (pre.map Disp.interval).map (fun iv => iv.id)) ↔
      ∃ o ∈ (nonCriticalOf patients).filter
          (fun q => decide (q.1 ∉ pre.map (fun e => e.1.1))), o.2 = p := by
  constructor
  · rintro ⟨hp, hnc, hid⟩
    obtain ⟨i, hi⟩ := mem_enum_of_mem hp
    refine ⟨(i, p), ?_, rfl⟩
    simp only [List.mem_filter, decide_eq_true_eq]
    refine ⟨mem_nonCriticalOf.2 ⟨hi, hnc⟩, ?_⟩
    intro hm
    obtain ⟨e, he, hee⟩ := List.mem_map.1 hm
    have := enum_fst_inj (trace_mem_enum (hsub e he)).1 hi hee
    apply hid
    simp only [List.map_map, List.mem_map, Function.comp]
    exact ⟨e, he, by simp [Disp.interval, this]⟩
  · rintro ⟨o, ho, rfl⟩
    simp only [List.mem_filter, decide_eq_true_eq] at ho
    obtain ⟨ho1, ho2⟩ := ho
    have ho1' := mem_nonCriticalOf.1 ho1
    refine ⟨mem_of_mem_enum ho1'.1, ho1'.2, ?_⟩
    intro hm
    simp only [List.map_map, List.mem_map, Function.comp] at hm
    obtain ⟨e, he, hee⟩ := hm
    have := enum_id_inj hd (trace_mem_enum (hsub e he)).1 ho1'.1 hee
    exact ho2 (List.mem_map.2 ⟨e, he, by rw [this]⟩)

/-- A position of the schedule is a position of the trace. -/
theorem schedule_split {patients : List Patient} {j : Nat} {iv : Interval}
    (h : ((trace patients).map Disp.interval)[j]? = some iv) :
    ∃ (pre post : List Disp) (d : Disp), trace patients = pre ++ d :: post ∧
      pre.map Disp.interval = ((trace patients).map Disp.interval).take j ∧
      Disp.interval d = iv ∧
      post.map Disp.interval = ((trace patients).map Disp.interval).drop (j + 1) := by
  have hs := split_of_getElem? h
  obtain ⟨l1, l2, h1, h2, h3⟩ := List.map_eq_append_iff.1 hs
  obtain ⟨d, post, h4, h5, h6⟩ := List.map_eq_cons_iff.1 h3
  exact ⟨l1, post, d, by rw [h1, h4], h2, h5, h6⟩

theorem sortByArrival_same_arrival {xs : List Obj} {t : Int}
    (h : ∀ o ∈ xs, o.2.arrivalMinutes = t) : sortByArrival xs = xs := by
  have h1 := sortByArrival_stable t xs
  have h2 : xs.filter (fun p => decide (p.2.arrivalMinutes = t)) = xs :=
    List.filter_eq_self.2 (fun o ho => by simpa using h o ho)
  have h3 : (sortByArrival xs).filter (fun p => decide (p.2.arrivalMinutes = t)) =
      sortByArrival xs :=
    List.filter_eq_self.2 (fun o ho => by
      have : o ∈ xs := (List.perm_insertionSort arrivalLe xs).subset ho
      simpa using h o this)
  rw [h2, h3] at h1
  exact h1

/-! ## The claims -/

/-- C1 (non-overlap and timeline order): for an input whose arrival times are
non-negative integers and whose treatment times are positive integers (whatever the
classes, so in particular when they are all recognised), the returned schedule satisfies
`schedule[i].end ≤ schedule[j].start` for all positions `i < j`; hence no instant lies in
the ranges `[start, end)` of two different positions. This holds of the rounded sums,
however large the times. -/
theorem sjfScheduling_nonoverlap (patients : List Patient) (fuel : Nat)
    (hf : 2 * patients.length ≤ fuel) (ht : ValidTimes patients) :
    ∃ r, sjfScheduling fuel patients = some r ∧
      (∀ (i j : Nat) (a b : Interval), i < j → r.schedule[i]? = some a →
        r.schedule[j]? = some b → a.stop ≤ b.start) ∧
      (∀ (i j : Nat) (a b : Interval), i ≠ j → r.schedule[i]? = some a →
        r.schedule[j]? = some b →
        ∀ t : Int, ¬ (a.start ≤ t ∧ t < a.stop ∧ b.start ≤ t ∧ t < b.stop)) := by
  refine ⟨_, sjfScheduling_eq patients fuel (enough_fuel hf), ?_⟩
  have hpw : ((trace patients).map Disp.interval).Pairwise (fun a b => a.stop ≤ b.start) := by
    rw [List.pairwise_map]
    exact (timeline_lower (timeline_trace patients) (isClock_initial ht) (isClock_arrivals ht)
      (fun d hd => le_of_lt (ht _ (trace_mem_patients hd)).2.2.2)).2
  have key : ∀ (i j : Nat) (a b : Interval), i < j →
      ((trace patients).map Disp.interval)[i]? = some a →
      ((trace patients).map Disp.interval)[j]? = some b → a.stop ≤ b.start := by
    intro i j a b hij ha hb
    obtain ⟨hi, rfl⟩ := List.getElem?_eq_some_iff.1 ha
    obtain ⟨hj, rfl⟩ := List.getElem?_eq_some_iff.1 hb
    exact List.pairwise_iff_getElem.1 hpw i j hi hj hij
  refine ⟨key, ?_⟩
  intro i j a b hij ha hb t h
  rcases Nat.lt_or_gt_of_ne hij with h' | h'
  · have := key i j a b h' ha hb
    omega
  · have := key j i b a h' hb ha
    omega

/-- Instance of `sjfScheduling_nonoverlap` on a concrete input. -/
theorem sjfScheduling_nonoverlap_witness :
    ValidTimes wardMix ∧ ValidClasses wardMix ∧
    ∃ r, sjfScheduling 10 wardMix = some r ∧
      (∀ (i j : Nat) (a b : Interval), i < j → r.schedule[i]? = some a →
        r.schedule[j]? = some b → a.stop ≤ b.start) ∧
      (∀ (i j : Nat) (a b : Interval), i ≠ j → r.schedule[i]? = some a →
        r.schedule[j]? = some b →
        ∀ t : Int, ¬ (a.start ≤ t ∧ t < a.stop ∧ b.start ≤ t ∧ t < b.stop)) :=
  ⟨by decide, by decide,
    sjfScheduling_nonoverlap wardMix 10 (by decide) (by decide)⟩

/-- C2, the claim as stated fails: a treatment time of `2 ^ 53` added to the start `1`
rounds to `2 ^ 53`, so the interval lasts `2 ^ 53 - 1`, not the treatment time. -/
theorem sjfScheduling_one_interval_each_counterexample :
    DistinctIds longStay ∧ ValidClasses longStay ∧ ValidTimes longStay ∧
    ∃ r, sjfScheduling 2 longStay = some r ∧
      r.schedule = [⟨"H", 1, 9007199254740992, "non-critical"⟩] ∧
      ¬ (∀ iv ∈ r.schedule, ∀ p ∈ longStay, p.id = iv.id →
          iv.criticality = p.criticality ∧ iv.stop - iv.start = p.treatmentTime) := by
  have h : sjfRun 2 longStay = some ⟨9007199254740992,
      [⟨"H", 1, 9007199254740992, "non-critical"⟩], [-1], [9007199254740991]⟩ := by
    decide
  refine ⟨by decide, by decide, by decide, _,
    by simp only [sjfScheduling, h, Option.map_some']; rfl, rfl, ?_⟩
  intro hall
  have := (hall ⟨"H", 1, 9007199254740992, "non-critical"⟩ (by simp)
    ⟨"H", 1, 9007199254740992, "non-critical"⟩ (by simp [longStay]) rfl).2
  exact absurd this (by decide)

/-- C2 as amended (one interval per patient): for an input with pairwise distinct
identifiers and recognised classes, the identifiers of the schedule are a permutation
of the input identifiers (so there are as many intervals as patients) and the interval of
a patient carries that patient's class; if moreover arrival times are non-negative
integers, treatment times positive integers and the latest arrival plus the sum of all
treatment times is below `2 ^ 53`, the interval lasts exactly the patient's treatment
time. -/
theorem sjfScheduling_one_interval_each (patients : List Patient) (fuel : Nat)
    (hf : 2 * patients.length ≤ fuel) (hc : ValidClasses patients)
    (hd : DistinctIds patients) :
    ∃ r, sjfScheduling fuel patients = some r ∧
      (r.schedule.map (fun iv => iv.id)).Perm (patients.map (fun p => p.id)) ∧
      r.schedule.length = patients.length ∧
      (∀ iv ∈ r.schedule, ∀ p ∈ patients, p.id = iv.id →
        iv.criticality = p.criticality) ∧
      (ValidTimes patients → SafeRange patients →
        ∀ iv ∈ r.schedule, ∀ p ∈ patients, p.id = iv.id →
          iv.stop - iv.start = p.treatmentTime) := by
  refine ⟨_, sjfScheduling_eq patients fuel (enough_fuel hf), ?_, ?_, ?_, ?_⟩
  · have := (trace_perm_patients hc).map (fun p => p.id)
    simpa [List.map_map, Function.comp, Disp.interval] using this
  · have := (trace_perm_patients hc).length_eq
    simpa using this
  · intro iv hiv p hp hid
    obtain ⟨d, hdm, rfl⟩ := List.mem_map.1 hiv
    have := eq_of_id_eq hd hp (trace_mem_patients hdm) hid
    subst this
    simp [Disp.interval]
  · intro ht hs iv hiv p hp hid
    obtain ⟨d, hdm, rfl⟩ := List.mem_map.1 hiv
    have := eq_of_id_eq hd hp (trace_mem_patients hdm) hid
    subst this
    have h1 := (dispatch_exact ht hc hs hdm).1
    simp only [Disp.interval, h1]
    omega

/-- Instance of `sjfScheduling_one_interval_each` on a concrete input. -/
theorem sjfScheduling_one_interval_each_witness :
    ValidClasses wardMix ∧ DistinctIds wardMix ∧ ValidTimes wardMix ∧ SafeRange wardMix ∧
    ∃ r, sjfScheduling 10 wardMix = some r ∧
      (r.schedule.map (fun iv => iv.id)).Perm (wardMix.map (fun p => p.id)) ∧
      r.schedule.length = wardMix.length ∧
      (∀ iv ∈ r.schedule, ∀ p ∈ wardMix, p.id = iv.id →
        iv.criticality = p.criticality) ∧
      (ValidTimes wardMix → SafeRange wardMix →
        ∀ iv ∈ r.schedule, ∀ p ∈ wardMix, p.id = iv.id →
          iv.stop - iv.start = p.treatmentTime) :=
  ⟨by decide, by decide, by decide, by decide,
    sjfScheduling_one_interval_each wardMix 10 (by decide) (by decide) (by decide)⟩

/-- C3 (priority ordering): for a valid input, every critical patient `C` and every
non-critical patient `N` of it have an interval in the schedule, and the interval of `C`
starts no later than the interval of `N`. -/
theorem sjfScheduling_critical_first (patients : List Patient) (fuel : Nat)
    (hf : 2 * patients.length ≤ fuel) (hv : ValidInput patients) :
    ∃ r, sjfScheduling fuel patients = some r ∧
      ∀ C ∈ patients, ∀ N ∈ patients, C.criticality = "critical" →
        N.criticality = "non-critical" →
        (∃ a ∈ r.schedule, a.id = C.id) ∧ (∃ b ∈ r.schedule, b.id = N.id) ∧
        ∀ a ∈ r.schedule, ∀ b ∈ r.schedule, a.id = C.id → b.id = N.id →
          a.start ≤ b.start := by
  obtain ⟨ht, hc, hd⟩ := hv
  refine ⟨_, sjfScheduling_eq patients fuel (enough_fuel hf), ?_⟩
  intro C hC N hN hCc hNc
  have hall : ∀ p ∈ patients, ∃ d ∈ trace patients, d.1.2 = p := by
    intro p hp
    have := (trace_perm_patients hc).symm.subset hp
    simpa using this
  refine ⟨?_, ?_, ?_⟩
  · obtain ⟨d, hdm, rfl⟩ := hall C hC
    exact ⟨Disp.interval d, List.mem_map_of_mem _ hdm, rfl⟩
  · obtain ⟨d, hdm, rfl⟩ := hall N hN
    exact ⟨Disp.interval d, List.mem_map_of_mem _ hdm, rfl⟩
  · intro a ha b hb haid hbid
    obtain ⟨da, hda, rfl⟩ := List.mem_map.1 ha
    obtain ⟨db, hdb, rfl⟩ := List.mem_map.1 hb
    have hCe := eq_of_id_eq hd hC (trace_mem_patients hda) haid.symm
    have hNe := eq_of_id_eq hd hN (trace_mem_patients hdb) hbid.symm
    obtain ⟨cs, ns, hsplit, -, -, hcs, hns⟩ := trace_parts_class patients
    have htl := timeline_lower (timeline_trace patients) (isClock_initial ht)
      (isClock_arrivals ht) (fun d hd => le_of_lt (ht _ (trace_mem_patients hd)).2.2.2)
    have hpw := htl.2
    have h2 := (htl.1 da hda).2.2
    rw [hsplit] at hda hdb hpw
    have hda' : da ∈ cs := by
      rcases List.mem_append.1 hda with h | h
      · exact h
      · have := (hns da h).1
        rw [← hCe, hCc] at this
        exact absurd this critical_ne_nonCritical
    have hdb' : db ∈ ns := by
      rcases List.mem_append.1 hdb with h | h
      · have := hcs db h
        rw [← hNe, hNc] at this
        exact absurd this.symm critical_ne_nonCritical
      · exact h
    have h1 := (List.pairwise_append.1 hpw).2.2 da hda' db hdb'
    simp only [Disp.interval]
    omega

/-- Instance of `sjfScheduling_critical_first` on a concrete input. -/
theorem sjfScheduling_critical_first_witness :
    ValidInput scenario2 ∧
    (sjfScheduling 4 scenario2).map (fun r => r.schedule) =
      some [⟨"P2", 5, 8, "critical"⟩, ⟨"P1", 8, 18, "non-critical"⟩] ∧
    ∃ r, sjfScheduling 4 scenario2 = some r ∧
      ∀ C ∈ scenario2, ∀ N ∈ scenario2, C.criticality = "critical" →
        N.criticality = "non-critical" →
        (∃ a ∈ r.schedule, a.id = C.id) ∧ (∃ b ∈ r.schedule, b.id = N.id) ∧
        ∀ a ∈ r.schedule, ∀ b ∈ r.schedule, a.id = C.id → b.id = N.id →
          a.start ≤ b.start :=
  ⟨by decide, by decide, sjfScheduling_critical_first scenario2 4 (by decide) (by decide)⟩

/-- C4 (shortest job first among the arrived): for an input with distinct identifiers
(in particular for a valid input) and two non-critical patients `A` and `B` of it, if `A`
has arrived when the interval of `B` starts, and `A` has the smaller treatment time, or
the same treatment time and the earlier arrival, then the interval of `A` stands at an
earlier position of the schedule than the interval of `B`. -/
theorem sjfScheduling_shortest_first (patients : List Patient) (fuel : Nat)
    (hf : 2 * patients.length ≤ fuel) (hd : DistinctIds patients) :
    ∃ r, sjfScheduling fuel patients = some r ∧
      ∀ A ∈ patients, ∀ B ∈ patients, A.criticality = "non-critical" →
        B.criticality = "non-critical" →
        ∀ (j : Nat) (ivB : Interval), r.schedule[j]? = some ivB → ivB.id = B.id →
          A.arrivalMinutes ≤ ivB.start →
          (A.treatmentTime < B.treatmentTime ∨
            (A.treatmentTime = B.treatmentTime ∧ A.arrivalMinutes < B.arrivalMinutes)) →
          ∃ (i : Nat) (ivA : Interval), i < j ∧ r.schedule[i]? = some ivA ∧
            ivA.id = A.id := by
  refine ⟨_, sjfScheduling_eq patients fuel (enough_fuel hf), ?_⟩
  intro A hA B hB hAc hBc j ivB hj hid harr hlt
  obtain ⟨pre, post, d, hsplit, hpre, rfl, -⟩ := schedule_split hj
  have hdm : d ∈ trace patients := by rw [hsplit]; simp
  have hBe : B = d.1.2 := eq_of_id_eq hd hB (trace_mem_patients hdm) hid.symm
  subst hBe
  obtain ⟨-, hsel⟩ := trace_nc_split hsplit hBc
  obtain ⟨i, hi⟩ := mem_enum_of_mem hA
  by_cases hserved : i ∈ pre.map (fun e => e.1.1)
  · obtain ⟨e, he, hee⟩ := List.mem_map.1 hserved
    have hem : e ∈ trace patients := by rw [hsplit]; exact List.mem_append_left _ he
    have heq := enum_fst_inj (trace_mem_enum hem).1 hi hee
    have hmem : Disp.interval e ∈ ((trace patients).map Disp.interval).take j := by
      rw [← hpre]
      exact List.mem_map_of_mem _ he
    obtain ⟨i', hlt', hget⟩ := mem_take_iff_getElem?.1 hmem
    exact ⟨i', Disp.interval e, hlt', hget, by simp [Disp.interval, heq]⟩
  · exfalso
    have hav : ((i, A) : Obj) ∈ availableAt d.2 ((nonCriticalOf patients).filter
        (fun p => decide (p.1 ∉ pre.map (fun e => e.1.1)))) := by
      simp only [availableAt, List.mem_filter, decide_eq_true_eq]
      exact ⟨⟨mem_nonCriticalOf.2 ⟨hi, hAc⟩, hserved⟩, harr⟩
    exact (selectNext_spec hsel).2 _ hav hlt

/-- Instance of `sjfScheduling_shortest_first` on a concrete input. -/
theorem sjfScheduling_shortest_first_witness :
    DistinctIds scenario1 ∧
    (sjfScheduling 4 scenario1).map (fun r => r.schedule) =
      some [⟨"P2", 0, 5, "non-critical"⟩, ⟨"P1", 5, 15, "non-critical"⟩] ∧
    ∃ r, sjfScheduling 4 scenario1 = some r ∧
      ∀ A ∈ scenario1, ∀ B ∈ scenario1, A.criticality = "non-critical" →
        B.criticality = "non-critical" →
        ∀ (j : Nat) (ivB : Interval), r.schedule[j]? = some ivB → ivB.id = B.id →
          A.arrivalMinutes ≤ ivB.start →
          (A.treatmentTime < B.treatmentTime ∨
            (A.treatmentTime = B.treatmentTime ∧ A.arrivalMinutes < B.arrivalMinutes)) →
          ∃ (i : Nat) (ivA : Interval), i < j ∧ r.schedule[i]? = some ivA ∧
            ivA.id = A.id :=
  ⟨by decide, by decide, sjfScheduling_shortest_first scenario1 4 (by decide) (by decide)⟩

/-- C5, the claim as stated fails: with arrival `1` and treatment time `2 ^ 53` the end
rounds to `2 ^ 53`, the turnaround time is `2 ^ 53 - 1` and the accumulated waiting time
is `-1`. -/
theorem sjfScheduling_no_early_start_counterexample :
    ValidInput longStay ∧
    ∃ s, sjfRun 2 longStay = some s ∧ s.waitingTimes = [-1] ∧
      ¬ (∀ w ∈ s.waitingTimes, 0 ≤ w) := by
  have h : sjfRun 2 longStay = some ⟨9007199254740992,
      [⟨"H", 1, 9007199254740992, "non-critical"⟩], [-1], [9007199254740991]⟩ := by
    decide
  refine ⟨by decide, _, h, rfl, ?_⟩
  intro hall
  exact absurd (hall (-1) (by simp)) (by decide)

/-- C5 as amended (no early start): for a valid input every interval starts at or after
the arrival of its patient and ends at or after it, and every entry accumulated in
`turnaroundTimes` is non-negative; if moreover the latest arrival plus the sum of all
treatment times is below `2 ^ 53`, the waiting time `end - arrival - treatmentTime` of
every patient and every entry accumulated in `waitingTimes` is non-negative. -/
theorem sjfScheduling_no_early_start (patients : List Patient) (fuel : Nat)
    (hf : 2 * patients.length ≤ fuel) (hv : ValidInput patients) :
    ∃ s r, sjfRun fuel patients = some s ∧ sjfScheduling fuel patients = some r ∧
      r.schedule = s.schedule ∧
      (∀ iv ∈ r.schedule, ∀ p ∈ patients, p.id = iv.id →
        p.arrivalMinutes ≤ iv.start ∧ 0 ≤ iv.stop - p.arrivalMinutes) ∧
      s.waitingTimes.length = patients.length ∧
      s.turnaroundTimes.length = patients.length ∧
      (∀ t ∈ s.turnaroundTimes, 0 ≤ t) ∧
      (SafeRange patients →
        (∀ iv ∈ r.schedule, ∀ p ∈ patients, p.id = iv.id →
          0 ≤ iv.stop - p.arrivalMinutes - p.treatmentTime) ∧
        ∀ w ∈ s.waitingTimes, 0 ≤ w) := by
  obtain ⟨ht, hc, hd⟩ := hv
  have harr := timeline_arrival (timeline_trace patients)
  have htl := (timeline_lower (timeline_trace patients) (isClock_initial ht)
    (isClock_arrivals ht) (fun d hd => le_of_lt (ht _ (trace_mem_patients hd)).2.2.2)).1
  have hlen := (trace_perm_patients hc).length_eq
  simp only [List.length_map] at hlen
  refine ⟨_, _, sjfRun_eq patients fuel (enough_fuel hf),
    sjfScheduling_eq patients fuel (enough_fuel hf), by simp [Acc.extend, initAcc], ?_,
    by simp [Acc.extend, initAcc, hlen], by simp [Acc.extend, initAcc, hlen], ?_, ?_⟩
  · intro iv hiv p hp hid
    obtain ⟨d, hdm, rfl⟩ := List.mem_map.1 hiv
    have := eq_of_id_eq hd hp (trace_mem_patients hdm) hid
    subst this
    have h1 := harr d hdm
    have h2 := (htl d hdm).2.2
    simp only [Disp.interval]
    omega
  · intro t htm
    simp only [Acc.extend, initAcc, List.nil_append, List.mem_map] at htm
    obtain ⟨d, hdm, rfl⟩ := htm
    have h1 := harr d hdm
    have h2 := htl d hdm
    have h3 := (ht _ (trace_mem_patients hdm)).2.2.1
    exact numSub_nonneg (by omega) (by omega)
  · intro hs
    constructor
    · intro iv hiv p hp hid
      obtain ⟨d, hdm, rfl⟩ := List.mem_map.1 hiv
      have := eq_of_id_eq hd hp (trace_mem_patients hdm) hid
      subst this
      have h1 := harr d hdm
      have h2 := (dispatch_exact ht hc hs hdm).1
      simp only [Disp.interval, h2]
      omega
    · intro w hw
      simp only [Acc.extend, initAcc, List.nil_append, List.mem_map] at hw
      obtain ⟨d, hdm, rfl⟩ := hw
      have h1 := harr d hdm
      rw [(dispatch_exact ht hc hs hdm).2.2]
      omega

/-- Instance of `sjfScheduling_no_early_start` on a concrete input. -/
theorem sjfScheduling_no_early_start_witness :
    ValidInput wardMix ∧ SafeRange wardMix ∧
    ∃ s r, sjfRun 10 wardMix = some s ∧ sjfScheduling 10 wardMix = some r ∧
      r.schedule = s.schedule ∧
      (∀ iv ∈ r.schedule, ∀ p ∈ wardMix, p.id = iv.id →
        p.arrivalMinutes ≤ iv.start ∧ 0 ≤ iv.stop - p.arrivalMinutes) ∧
      s.waitingTimes.length = wardMix.length ∧
      s.turnaroundTimes.length = wardMix.length ∧
      (∀ t ∈ s.turnaroundTimes, 0 ≤ t) ∧
      (SafeRange wardMix →
        (∀ iv ∈ r.schedule, ∀ p ∈ wardMix, p.id = iv.id →
          0 ≤ iv.stop - p.arrivalMinutes - p.treatmentTime) ∧
        ∀ w ∈ s.waitingTimes, 0 ≤ w) :=
  ⟨by decide, by decide, sjfScheduling_no_early_start wardMix 10 (by decide) (by decide)⟩

/-- C6, the claim as stated fails: with arrival `1` and treatment time `2 ^ 53` the
returned average waiting time is `-1`, while the only interval starts at the arrival of
its patient, so that the mean of `start - arrival` is `0`. -/
theorem sjfScheduling_averages_counterexample :
    ValidInput longStay ∧
    ∃ r, sjfScheduling 2 longStay = some r ∧
      r.schedule = [⟨"H", 1, 9007199254740992, "non-critical"⟩] ∧
      r.metrics.avgWaitingTime = JSNum.finite (-1) ∧
      r.metrics.avgWaitingTime ≠ JSNum.finite
        ((((r.schedule.map (fun iv => iv.start - arrivalOf longStay iv.id)).sum : Int) : ℚ) /
          (r.schedule.length : ℚ)) := by
  have h : sjfRun 2 longStay = some ⟨9007199254740992,
      [⟨"H", 1, 9007199254740992, "non-critical"⟩], [-1], [9007199254740991]⟩ := by
    decide
  have hw : average [-1] = JSNum.finite (-1) := by
    have h1 : sumOf [-1] = some (-1) := by decide
    have h2 : divParts 1 1 = (2 ^ 52, -52) := by decide
    simp only [average, h1, numDiv]
    norm_num [INF, h2]
  have ha : arrivalOf longStay "H" = 1 := by decide
  refine ⟨by decide, _, by simp only [sjfScheduling, h, Option.map_some']; rfl, rfl, hw, ?_⟩
  show average [-1] ≠ _
  rw [hw]
  simp [ha]

/-- C6 as amended (mean correctness): for a valid, non-empty input for which the number
of patients times (the latest arrival plus the sum of all treatment times) is below
`2 ^ 53`, `metrics.avgWaitingTime` is the quotient, rounded to the nearest double, of the
exact sum over the scheduled intervals of `start - arrival` of the originating patient
by the number of intervals, and `metrics.avgTurnaroundTime` is the same for
`end - arrival`; for the empty input the schedule is empty and both averages are `0`. -/
theorem sjfScheduling_averages (patients : List Patient) (fuel : Nat)
    (hf : 2 * patients.length ≤ fuel) (hv : ValidInput patients) (hs : SafeSums patients) :
    ∃ r, sjfScheduling fuel patients = some r ∧
      r.schedule.length = patients.length ∧
      (patients ≠ [] →
        r.metrics.avgWaitingTime =
          numDiv (r.schedule.map (fun iv => iv.start - arrivalOf patients iv.id)).sum
            r.schedule.length ∧
        r.metrics.avgTurnaroundTime =
          numDiv (r.schedule.map (fun iv => iv.stop - arrivalOf patients iv.id)).sum
            r.schedule.length) ∧
      (patients = [] → r.schedule = [] ∧ r.metrics.avgWaitingTime = JSNum.finite 0 ∧
        r.metrics.avgTurnaroundTime = JSNum.finite 0) := by
  obtain ⟨ht, hc, hd⟩ := hv
  have hlen : (trace patients).length = patients.length := by
    have := (trace_perm_patients hc).length_eq
    simpa using this
  refine ⟨_, sjfScheduling_eq patients fuel (enough_fuel hf), by simpa using hlen, ?_, ?_⟩
  · intro hne
    have hpos : 0 < patients.length := List.length_pos.2 hne
    have htne : trace patients ≠ [] := by
      intro h0
      rw [h0] at hlen
      simp at hlen
      omega
    have hB0 : 0 ≤ latestArrival patients + totalTreatment patients := by
      have h1 : 0 ≤ latestArrival patients := (foldl_max_spec _ 0).1
      have h2 : 0 ≤ totalTreatment patients := List.sum_nonneg (fun x hx => by
        obtain ⟨p, hp, rfl⟩ := List.mem_map.1 hx
        exact le_of_lt (ht p hp).2.2.2)
      omega
    have hmul : latestArrival patients + totalTreatment patients ≤
        (patients.length : Int) * (latestArrival patients + totalTreatment patients) := by
      have h1 : (1 : Int) ≤ (patients.length : Int) := by exact_mod_cast hpos
      nlinarith
    have hsr : SafeRange patients := lt_of_le_of_lt hmul hs
    have harr := timeline_arrival (timeline_trace patients)
    have hex := fun d hd => dispatch_exact ht hc hsr (d := d) hd
    have hbd := trace_exact ht hc hsr
    -- the accumulated lists are the exact integers
    have hwl : (trace patients).map Disp.waiting =
        (trace patients).map (fun d => d.2 - d.1.2.arrivalMinutes) :=
      List.map_congr_left (fun d hd => (hex d hd).2.2)
    have htl : (trace patients).map Disp.turnaround =
        (trace patients).map (fun d => d.2 + d.1.2.treatmentTime - d.1.2.arrivalMinutes) :=
      List.map_congr_left (fun d hd => (hex d hd).2.1)
    have hws : ((trace patients).map Disp.interval).map
          (fun iv => iv.start - arrivalOf patients iv.id) =
        (trace patients).map (fun d => d.2 - d.1.2.arrivalMinutes) := by
      rw [List.map_map]
      exact List.map_congr_left (fun d hdm => by
        simp only [Function.comp, Disp.interval, arrivalOf_eq hd (trace_mem_patients hdm)])
    have hts : ((trace patients).map Disp.interval).map
          (fun iv => iv.stop - arrivalOf patients iv.id) =
        (trace patients).map (fun d => d.2 + d.1.2.treatmentTime - d.1.2.arrivalMinutes) := by
      rw [List.map_map]
      exact List.map_congr_left (fun d hdm => by
        simp only [Function.comp, Disp.interval, arrivalOf_eq hd (trace_mem_patients hdm),
          (hex d hdm).1])
    have hsafe : (patients.length : Int) *
        (latestArrival patients + totalTreatment patients) < 9007199254740992 := hs
    have hw := @average_exact
      ((trace patients).map (fun d => d.2 - d.1.2.arrivalMinutes))
      (by simpa using htne)
      (fun x hx => by
        obtain ⟨d, hdm, rfl⟩ := List.mem_map.1 hx
        have := harr d hdm
        omega)
      (by
        have hle := @sum_le_length_mul
          ((trace patients).map (fun d => d.2 - d.1.2.arrivalMinutes))
          (latestArrival patients + totalTreatment patients)
          (fun x hx => by
            obtain ⟨d, hdm, rfl⟩ := List.mem_map.1 hx
            have h1 := (hbd d hdm).2
            have h2 := ht _ (trace_mem_patients hdm)
            omega)
        rw [List.length_map, hlen] at hle
        omega)
    have htt := @average_exact
      ((trace patients).map
        (fun d => d.2 + d.1.2.treatmentTime - d.1.2.arrivalMinutes))
      (by simpa using htne)
      (fun x hx => by
        obtain ⟨d, hdm, rfl⟩ := List.mem_map.1 hx
        have := harr d hdm
        have h2 := ht _ (trace_mem_patients hdm)
        omega)
      (by
        have hle := @sum_le_length_mul
          ((trace patients).map
            (fun d => d.2 + d.1.2.treatmentTime - d.1.2.arrivalMinutes))
          (latestArrival patients + totalTreatment patients)
          (fun x hx => by
            obtain ⟨d, hdm, rfl⟩ := List.mem_map.1 hx
            have h1 := (hbd d hdm).2
            have h2 := ht _ (trace_mem_patients hdm)
            omega)
        rw [List.length_map, hlen] at hle
        omega)
    rw [List.length_map] at hw htt
    constructor
    · show average ((trace patients).map Disp.waiting) = _
      rw [hwl, hw, hws, List.length_map]
    · show average ((trace patients).map Disp.turnaround) = _
      rw [htl, htt, hts, List.length_map]
  · intro he
    subst he
    have : trace [] = [] := by decide
    simp [this, average]

/-- Instance of `sjfScheduling_averages` on a concrete input. -/
theorem sjfScheduling_averages_witness :
    ValidInput scenario1 ∧ SafeSums scenario1 ∧
    sjfScheduling 4 scenario1 = some
      { schedule := [⟨"P2", 0, 5, "non-critical"⟩, ⟨"P1", 5, 15, "non-critical"⟩]
        metrics := ⟨JSNum.finite (5 / 2), JSNum.finite 10⟩ } ∧
    ∃ r, sjfScheduling 4 scenario1 = some r ∧
      r.schedule.length = scenario1.length ∧
      (scenario1 ≠ [] →
        r.metrics.avgWaitingTime =
          numDiv (r.schedule.map (fun iv => iv.start - arrivalOf scenario1 iv.id)).sum
            r.schedule.length ∧
        r.metrics.avgTurnaroundTime =
          numDiv (r.schedule.map (fun iv => iv.stop - arrivalOf scenario1 iv.id)).sum
            r.schedule.length) ∧
      (scenario1 = [] → r.schedule = [] ∧ r.metrics.avgWaitingTime = JSNum.finite 0 ∧
        r.metrics.avgTurnaroundTime = JSNum.finite 0) :=
  ⟨by decide, by decide,
    by
      have h : sjfRun 4 scenario1 = some ⟨15,
          [⟨"P2", 0, 5, "non-critical"⟩, ⟨"P1", 5, 15, "non-critical"⟩], [0, 5], [5, 15]⟩ := by
        decide
      have hw : average [0, 5] = JSNum.finite (5 / 2) := by
        have h1 : sumOf [0, 5] = some 5 := by decide
        have h2 : divParts 5 2 = (5 * 2 ^ 50, -51) := by decide
        simp only [average, h1, numDiv]
        norm_num [INF, h2]
      have ht : average [5, 15] = JSNum.finite 10 := by
        have h1 : sumOf [5, 15] = some 20 := by decide
        have h2 : divParts 20 2 = (5 * 2 ^ 50, -49) := by decide
        simp only [average, h1, numDiv]
        norm_num [INF, h2]
      simp only [sjfScheduling, h, Option.map_some', hw, ht],
    sjfScheduling_averages scenario1 4 (by decide) (by decide) (by decide)⟩

/-- C7 (critical prefix in stable arrival order): the schedule is a block of critical
intervals followed by a block of non-critical ones; the critical block lists the
critical patients in ascending order of `arrivalMinutes`, patients of equal
`arrivalMinutes` in their order of submission. That order is fixed by the critical
patients and their arrival times alone. -/
theorem sjfScheduling_critical_block (patients : List Patient) (fuel : Nat)
    (hf : 2 * patients.length ≤ fuel) :
    ∃ r, sjfScheduling fuel patients = some r ∧
      ∃ (critIvs rest : List Interval) (L : List Patient),
        r.schedule = critIvs ++ rest ∧
        (∀ iv ∈ critIvs, iv.criticality = "critical") ∧
        (∀ iv ∈ rest, iv.criticality = "non-critical") ∧
        critIvs.map (fun iv => iv.id) = L.map (fun p => p.id) ∧
        L.Perm (patients.filter (fun p => p.criticality = "critical")) ∧
        L.Pairwise (fun p q => p.arrivalMinutes ≤ q.arrivalMinutes) ∧
        ∀ t : Int, L.filter (fun p => decide (p.arrivalMinutes = t)) =
          (patients.filter (fun p => p.criticality = "critical")).filter
            (fun p => decide (p.arrivalMinutes = t)) := by
  refine ⟨_, sjfScheduling_eq patients fuel (enough_fuel hf), ?_⟩
  obtain ⟨cs, ns, hsplit, hcs, -, hcc, hnc⟩ := trace_parts_class patients
  refine ⟨cs.map Disp.interval, ns.map Disp.interval, (criticalOf patients).map Prod.snd,
    by simp [hsplit], ?_, ?_, ?_, ?_, ?_, ?_⟩
  · intro iv hiv
    obtain ⟨d, hd, rfl⟩ := List.mem_map.1 hiv
    exact hcc d hd
  · intro iv hiv
    obtain ⟨d, hd, rfl⟩ := List.mem_map.1 hiv
    exact (hnc d hd).1
  · rw [← hcs]
    simp [List.map_map, Function.comp, Disp.interval]
  · have := (criticalOf_perm patients).map Prod.snd
    rwa [enum_filter_map_snd patients (fun p => decide (p.criticality = "critical"))] at this
  · rw [List.pairwise_map]
    exact sortByArrival_sorted _
  · intro t
    have h1 := List.filter_map (p := fun p : Patient => decide (p.arrivalMinutes = t))
      (f := Prod.snd) (l := criticalOf patients)
    have h2 := sortByArrival_stable t
      (patients.enum.filter (fun p => p.2.criticality = "critical"))
    have h3 := List.filter_map (p := fun p : Patient => decide (p.arrivalMinutes = t))
      (f := Prod.snd) (l := patients.enum.filter (fun p => p.2.criticality = "critical"))
    rw [enum_filter_map_snd patients (fun p => decide (p.criticality = "critical"))] at h3
    rw [h1, h3]
    exact congrArg (List.map Prod.snd) h2

/-- Instance of `sjfScheduling_critical_block` on a concrete input. -/
theorem sjfScheduling_critical_block_witness :
    ∃ r, sjfScheduling 10 wardMix = some r ∧
      ∃ (critIvs rest : List Interval) (L : List Patient),
        r.schedule = critIvs ++ rest ∧
        (∀ iv ∈ critIvs, iv.criticality = "critical") ∧
        (∀ iv ∈ rest, iv.criticality = "non-critical") ∧
        critIvs.map (fun iv => iv.id) = L.map (fun p => p.id) ∧
        L.Perm (wardMix.filter (fun p => p.criticality = "critical")) ∧
        L.Pairwise (fun p q => p.arrivalMinutes ≤ q.arrivalMinutes) ∧
        ∀ t : Int, L.filter (fun p => decide (p.arrivalMinutes = t)) =
          (wardMix.filter (fun p => p.criticality = "critical")).filter
            (fun p => decide (p.arrivalMinutes = t)) :=
  sjfScheduling_critical_block wardMix 10 (by decide)

/-- C8, the claim as stated fails: two critical patients arriving together are served in
their order of submission, here the longer treatment first. -/
theorem sjfScheduling_same_arrival_counterexample :
    ValidInput criticalPair ∧ (∀ p ∈ criticalPair, p.arrivalMinutes = 0) ∧
    ∃ r, sjfScheduling 4 criticalPair = some r ∧
      r.schedule = [⟨"C1", 0, 10, "critical"⟩, ⟨"C2", 10, 15, "critical"⟩] ∧
      ¬ (∀ (i j : Nat) (a b : Interval), i < j → r.schedule[i]? = some a →
          r.schedule[j]? = some b → a.criticality = b.criticality →
          ∀ A ∈ criticalPair, ∀ B ∈ criticalPair, A.id = a.id → B.id = b.id →
            A.treatmentTime ≤ B.treatmentTime) := by
  have h : sjfRun 4 criticalPair = some ⟨15,
      [⟨"C1", 0, 10, "critical"⟩, ⟨"C2", 10, 15, "critical"⟩], [0, 10], [10, 15]⟩ := by
    decide
  refine ⟨by decide, by decide, _, by simp only [sjfScheduling, h, Option.map_some']; rfl,
    rfl, ?_⟩
  intro hall
  have := hall 0 1 ⟨"C1", 0, 10, "critical"⟩ ⟨"C2", 10, 15, "critical"⟩ (by decide) rfl rfl
    rfl ⟨"C1", 0, 10, "critical"⟩ (by decide) ⟨"C2", 0, 5, "critical"⟩ (by decide) rfl rfl
  exact absurd this (by decide)

/-- C8 as amended: for an input with distinct identifiers (in particular a valid input)
in which all patients have the same arrival time, the non-critical intervals appear in
ascending order of treatment time, and the critical intervals appear in the order of
submission of their patients. -/
theorem sjfScheduling_same_arrival (patients : List Patient) (fuel : Nat)
    (hf : 2 * patients.length ≤ fuel) (hd : DistinctIds patients) (t : Int)
    (hsame : ∀ p ∈ patients, p.arrivalMinutes = t) :
    ∃ r, sjfScheduling fuel patients = some r ∧
      (∀ (i j : Nat) (a b : Interval), i < j → r.schedule[i]? = some a →
        r.schedule[j]? = some b → a.criticality = "non-critical" →
        b.criticality = "non-critical" →
        ∀ A ∈ patients, ∀ B ∈ patients, A.id = a.id → B.id = b.id →
          A.treatmentTime ≤ B.treatmentTime) ∧
      (r.schedule.filter (fun iv => iv.criticality = "critical")).map (fun iv => iv.id) =
        (patients.filter (fun p => p.criticality = "critical")).map (fun p => p.id) := by
  refine ⟨_, sjfScheduling_eq patients fuel (enough_fuel hf), ?_, ?_⟩
  · intro i j a b hij hi hj hac hbc A hA B hB hAid hBid
    obtain ⟨pre, post, da, hsplit, -, rfl, hpost⟩ := schedule_split hi
    have hbm := mem_drop_of_lt hij hj
    rw [← hpost] at hbm
    obtain ⟨db, hdb, rfl⟩ := List.mem_map.1 hbm
    have hdam : da ∈ trace patients := by rw [hsplit]; simp
    have hdbm : db ∈ trace patients := by rw [hsplit]; simp [hdb]
    have hAe := eq_of_id_eq hd hA (trace_mem_patients hdam) hAid
    have hBe := eq_of_id_eq hd hB (trace_mem_patients hdbm) hBid
    subst hAe hBe
    obtain ⟨-, hsel⟩ := trace_nc_split hsplit hac
    have hsp := selectNext_spec hsel
    have hda_arr : da.1.2.arrivalMinutes ≤ da.2 := by
      have := hsp.1
      simp only [availableAt, List.mem_filter, decide_eq_true_eq] at this
      exact this.2
    have hav : db.1 ∈ availableAt da.2 ((nonCriticalOf patients).filter
        (fun p => decide (p.1 ∉ pre.map (fun e => e.1.1)))) := by
      simp only [availableAt, List.mem_filter, decide_eq_true_eq]
      refine ⟨⟨mem_nonCriticalOf.2 ⟨(trace_mem_enum hdbm).1, hbc⟩,
        trace_not_mem_pre hsplit (List.mem_cons_of_mem _ hdb)⟩, ?_⟩
      rw [hsame _ (trace_mem_patients hdbm), ← hsame _ (trace_mem_patients hdam)]
      exact hda_arr
    have hnl := hsp.2 _ hav
    have e1 := hsame _ (trace_mem_patients hdbm)
    have e2 := hsame _ (trace_mem_patients hdam)
    simp only [Disp.interval] at hnl ⊢
    unfold lexLt at hnl
    omega
  · obtain ⟨cs, ns, hsplit, hcs, -, hcc, hnc⟩ := trace_parts_class patients
    have h1 : (cs.map Disp.interval).filter (fun iv => decide (iv.criticality = "critical")) =
        cs.map Disp.interval := by
      apply List.filter_eq_self.2
      intro iv hiv
      obtain ⟨d, hdm, rfl⟩ := List.mem_map.1 hiv
      simpa [Disp.interval] using hcc d hdm
    have h2 : (ns.map Disp.interval).filter (fun iv => decide (iv.criticality = "critical")) =
        [] := by
      apply List.filter_eq_nil_iff.2
      intro iv hiv
      obtain ⟨d, hdm, rfl⟩ := List.mem_map.1 hiv
      have := (hnc d hdm).1
      simp [Disp.interval, this, critical_ne_nonCritical.symm]
    have h3 : criticalOf patients =
        patients.enum.filter (fun p => p.2.criticality = "critical") := by
      apply sortByArrival_same_arrival (t := t)
      intro o ho
      exact hsame _ (mem_of_mem_enum (List.mem_filter.1 ho).1)
    simp only [hsplit, List.map_append, List.filter_append, h1, h2, List.append_nil]
    rw [← enum_filter_map_snd patients (fun p => decide (p.criticality = "critical")), ← h3,
      ← hcs]
    simp [List.map_map, Function.comp, Disp.interval]

/-- Instance of `sjfScheduling_same_arrival` on a concrete input. -/
theorem sjfScheduling_same_arrival_witness :
    DistinctIds sameArrival ∧ (∀ p ∈ sameArrival, p.arrivalMinutes = 30) ∧
    ∃ r, sjfScheduling 8 sameArrival = some r ∧
      (∀ (i j : Nat) (a b : Interval), i < j → r.schedule[i]? = some a →
        r.schedule[j]? = some b → a.criticality = "non-critical" →
        b.criticality = "non-critical" →
        ∀ A ∈ sameArrival, ∀ B ∈ sameArrival, A.id = a.id → B.id = b.id →
          A.treatmentTime ≤ B.treatmentTime) ∧
      (r.schedule.filter (fun iv => iv.criticality = "critical")).map (fun iv => iv.id) =
        (sameArrival.filter (fun p => p.criticality = "critical")).map (fun p => p.id) :=
  ⟨by decide, by decide,
    sjfScheduling_same_arrival sameArrival 8 (by decide) (by decide) 30 (by decide)⟩


/-- C9 (termination): on every input list, the empty one included, `sjfScheduling`
returns as soon as the `while` loop is allowed two executions of its body per
non-critical patient; more generally the loop, started in any state, exits within two
executions per remaining patient. The reason: an execution of the body on a non-empty
working set either removes a patient, or leaves the working set unchanged and moves the
clock so that somebody has arrived, and then the next execution removes a patient. -/
theorem sjfScheduling_terminates (patients : List Patient) (fuel : Nat)
    (hf : 2 * (patients.filter (fun p => p.criticality = "non-critical")).length ≤ fuel) :
    (∃ r, sjfScheduling fuel patients = some r) ∧
    (∀ s : LoopState, ∃ s1, whileLoop (2 * s.remainingNonCritical.length) s = some s1 ∧
      s1.remainingNonCritical = []) ∧
    ∀ s : LoopState, s.remainingNonCritical ≠ [] →
      (whileBody s).remainingNonCritical.length < s.remainingNonCritical.length ∨
      ((whileBody s).remainingNonCritical = s.remainingNonCritical ∧
        (whileBody s).remainingNonCritical.filter
          (fun p => p.2.arrivalMinutes ≤ (whileBody s).acc.currentTime) ≠ [] ∧
        (whileBody (whileBody s)).remainingNonCritical.length <
          s.remainingNonCritical.length) := by
  refine ⟨⟨_, sjfScheduling_eq patients fuel (by rw [nonCriticalOf_length]; exact hf)⟩,
    fun s => ⟨_, whileLoop_eq s.remainingNonCritical.length s _ (le_refl _) (le_refl _), rfl⟩,
    ?_⟩
  intro s hne
  by_cases hav : availableAt s.acc.currentTime s.remainingNonCritical = []
  · right
    have hne2 := availableAt_nextClock_ne_nil (c := s.acc.currentTime) hne
    obtain ⟨nx, hnx⟩ := selectNext_isSome hne2
    have hmem : nx ∈ s.remainingNonCritical := by
      have := (selectNext_spec hnx).1
      simp only [availableAt, List.mem_filter] at this
      exact this.1
    have hb2 := whileBody_dispatch
      (s := ⟨{ s.acc with currentTime := nextClock s.acc.currentTime s.remainingNonCritical },
        s.remainingNonCritical⟩) hnx
    rw [whileBody_idle hav]
    refine ⟨rfl, hne2, ?_⟩
    rw [hb2]
    exact length_filter_ne_lt hmem
  · left
    obtain ⟨nx, hnx⟩ := selectNext_isSome hav
    have hmem : nx ∈ s.remainingNonCritical := by
      have := (selectNext_spec hnx).1
      simp only [availableAt, List.mem_filter] at this
      exact this.1
    rw [whileBody_dispatch hnx]
    exact length_filter_ne_lt hmem

/-- Instance of `sjfScheduling_terminates` on a concrete input. -/
theorem sjfScheduling_terminates_witness :
    (∃ r, sjfScheduling 4 scenario4 = some r) ∧
    (∀ s : LoopState, ∃ s1, whileLoop (2 * s.remainingNonCritical.length) s = some s1 ∧
      s1.remainingNonCritical = []) ∧
    ∀ s : LoopState, s.remainingNonCritical ≠ [] →
      (whileBody s).remainingNonCritical.length < s.remainingNonCritical.length ∨
      ((whileBody s).remainingNonCritical = s.remainingNonCritical ∧
        (whileBody s).remainingNonCritical.filter
          (fun p => p.2.arrivalMinutes ≤ (whileBody s).acc.currentTime) ≠ [] ∧
        (whileBody (whileBody s)).remainingNonCritical.length <
          s.remainingNonCritical.length) :=
  sjfScheduling_terminates scenario4 4 (by decide)

/-- C10 (idling rule): take an input with distinct identifiers (in particular a valid
input) and a non-critical interval at position `j` of the schedule; let `c` be the end
of the interval just before it, or the minimum arrival time of all input patients if
`j = 0`, and `R` the non-critical patients without an interval before position `j`. If
some patient of `R` has arrived at `c` the interval starts at `c`; otherwise it starts at
the minimum arrival time over `R`. -/
theorem sjfScheduling_idle_rule (patients : List Patient) (fuel : Nat)
    (hf : 2 * patients.length ≤ fuel) (hd : DistinctIds patients) :
    ∃ r, sjfScheduling fuel patients = some r ∧
      ∀ (j : Nat) (iv : Interval), r.schedule[j]? = some iv →
        iv.criticality = "non-critical" →
        ∀ (c : Int) (R : List Patient),
          c = (match (r.schedule.take j).getLast? with
                | some l => l.stop
                | none => mathMin (patients.map (fun p => p.arrivalMinutes))) →
          R = patients.filter (fun p => decide (p.criticality = "non-critical" ∧
                p.id ∉ (r.schedule.take j).map (fun x => x.id))) →
          ((∃ p ∈ R, p.arrivalMinutes ≤ c) → iv.start = c) ∧
          ((¬ ∃ p ∈ R, p.arrivalMinutes ≤ c) →
            iv.start = mathMin (R.map (fun p => p.arrivalMinutes)) ∧
            (∃ p ∈ R, p.arrivalMinutes = iv.start) ∧
            ∀ q ∈ R, iv.start ≤ q.arrivalMinutes) := by
  refine ⟨_, sjfScheduling_eq patients fuel (enough_fuel hf), ?_⟩
  intro j iv hj hnc c R hc hR
  obtain ⟨pre, post, d, hsplit, hpre, rfl, -⟩ := schedule_split hj
  simp only at hc hR
  rw [← hpre] at hc hR
  have hsub : ∀ e ∈ pre, e ∈ trace patients := by
    intro e he
    rw [hsplit]
    exact List.mem_append_left _ he
  obtain ⟨hstart, hsel⟩ := trace_nc_split hsplit hnc
  have hclock : clockAfter (initAcc patients).currentTime pre = c := by
    rw [clockAfter_eq_getLast, hc]
    rfl
  rw [hclock] at hstart
  have hmem : ∀ p, p ∈ R ↔ ∃ o ∈ (nonCriticalOf patients).filter
      (fun q => decide (q.1 ∉ pre.map (fun e => e.1.1))), o.2 = p := by
    intro p
    rw [← remaining_mem_iff hd hsub p, hR]
    simp [List.mem_filter]
  have hmap : ∀ x, x ∈ R.map (fun p => p.arrivalMinutes) ↔
      x ∈ ((nonCriticalOf patients).filter
        (fun q => decide (q.1 ∉ pre.map (fun e => e.1.1)))).map
          (fun p => p.2.arrivalMinutes) := by
    intro x
    constructor
    · intro hx
      obtain ⟨p, hp, rfl⟩ := List.mem_map.1 hx
      obtain ⟨o, ho, rfl⟩ := (hmem p).1 hp
      exact List.mem_map.2 ⟨o, ho, rfl⟩
    · intro hx
      obtain ⟨o, ho, rfl⟩ := List.mem_map.1 hx
      exact List.mem_map.2 ⟨o.2, (hmem o.2).2 ⟨o, ho, rfl⟩, rfl⟩
  have hdR : d.1.2 ∈ R := by
    refine (hmem _).2 ⟨d.1, ?_, rfl⟩
    have := (selectNext_spec hsel).1
    simp only [availableAt, List.mem_filter] at this
    simpa [List.mem_filter] using this.1
  constructor
  · rintro ⟨p, hp, hpc⟩
    obtain ⟨o, ho, rfl⟩ := (hmem p).1 hp
    have hne : availableAt c ((nonCriticalOf patients).filter
        (fun q => decide (q.1 ∉ pre.map (fun e => e.1.1)))) ≠ [] := by
      intro h0
      have : o ∈ availableAt c ((nonCriticalOf patients).filter
          (fun q => decide (q.1 ∉ pre.map (fun e => e.1.1)))) := by
        simp only [availableAt, List.mem_filter, decide_eq_true_eq]
        simp only [List.mem_filter, decide_eq_true_eq] at ho
        exact ⟨ho, hpc⟩
      rw [h0] at this
      simp at this
    simp only [nextClock, hne, if_false] at hstart
    exact hstart
  · intro hno
    have hemp : availableAt c ((nonCriticalOf patients).filter
        (fun q => decide (q.1 ∉ pre.map (fun e => e.1.1)))) = [] := by
      apply List.eq_nil_iff_forall_not_mem.2
      intro o ho
      simp only [availableAt, List.mem_filter, decide_eq_true_eq] at ho
      refine hno ⟨o.2, (hmem o.2).2 ⟨o, ?_, rfl⟩, ho.2⟩
      simpa [List.mem_filter] using ho.1
    simp only [nextClock, hemp, if_true] at hstart
    have hne : R.map (fun p => p.arrivalMinutes) ≠ [] := by
      intro h0
      have := List.mem_map_of_mem (fun p : Patient => p.arrivalMinutes) hdR
      rw [h0] at this
      simp at this
    have hs : (Disp.interval d).start = mathMin (R.map (fun p => p.arrivalMinutes)) := by
      show d.2 = _
      rw [hstart]
      exact (mathMin_congr hmap hne).symm
    refine ⟨hs, ?_, ?_⟩
    · have := mathMin_mem hne
      rw [← hs] at this
      obtain ⟨p, hp, hpe⟩ := List.mem_map.1 this
      exact ⟨p, hp, hpe⟩
    · intro q hq
      rw [hs]
      exact mathMin_le (List.mem_map_of_mem (fun p : Patient => p.arrivalMinutes) hq)

/-- Instance of `sjfScheduling_idle_rule` on a concrete input. -/
theorem sjfScheduling_idle_rule_witness :
    DistinctIds scenario4 ∧
    (sjfScheduling 4 scenario4).map (fun r => r.schedule) =
      some [⟨"B", 0, 5, "non-critical"⟩, ⟨"A", 10, 15, "non-critical"⟩] ∧
    ∃ r, sjfScheduling 4 scenario4 = some r ∧
      ∀ (j : Nat) (iv : Interval), r.schedule[j]? = some iv →
        iv.criticality = "non-critical" →
        ∀ (c : Int) (R : List Patient),
          c = (match (r.schedule.take j).getLast? with
                | some l => l.stop
                | none => mathMin (scenario4.map (fun p => p.arrivalMinutes))) →
          R = scenario4.filter (fun p => decide (p.criticality = "non-critical" ∧
                p.id ∉ (r.schedule.take j).map (fun x => x.id))) →
          ((∃ p ∈ R, p.arrivalMinutes ≤ c) → iv.start = c) ∧
          ((¬ ∃ p ∈ R, p.arrivalMinutes ≤ c) →
            iv.start = mathMin (R.map (fun p => p.arrivalMinutes)) ∧
            (∃ p ∈ R, p.arrivalMinutes = iv.start) ∧
            ∀ q ∈ R, iv.start ≤ q.arrivalMinutes) :=
  ⟨by decide, by decide, sjfScheduling_idle_rule scenario4 4 (by decide) (by decide)⟩

end Triage
